import Mathlib

/-!
The ring-buffer deque of `cilium/ebpf/internal` (vendored in runc)

Shallow embedding of `vendor/github.com/cilium/ebpf/internal/deque.go`.

* `uint64` values are natural numbers below `2 ^ 64`; every arithmetic step of the
  source is followed by an explicit reduction modulo `2 ^ 64`.
* `int` is the 64-bit signed integer of the platforms runc targets; it is an `Int`
  wrapped into `[-2 ^ 63, 2 ^ 63)` after every arithmetic step.
* A run-time panic of the Go program is a value of `Fault`; every operation returns
  in `Except Fault`.
* The zero value of the element type `T` is `default` of `Inhabited T`.
* Allocation: `make([]T, len, cap)` of the Go runtime panics when `len > cap`, and
  also when `cap` times the size of an element overflows `uintptr` or exceeds the
  allocation limit `maxAlloc` of the runtime. `Deque.lineariseOn` takes the element
  size and `maxAlloc` as parameters and models both checks; it also returns the state
  of the receiver after the call. `Deque.linearise`, which `Push` calls, is the same
  function for an allocator that refuses no size (`Deque.linearise_eq_lineariseOn`),
  as it is for zero-size elements. `maxAlloc` stands for the largest allocation the
  runtime grants: its constant `maxAlloc` (`2 ^ 48` bytes on linux/amd64), or less on
  a machine with less memory to give. A refused allocation ends the call without a
  slice, and is the fault `Fault.makeslice`.
-/

set_option autoImplicit false

/-- Run-time panics that the deque code can raise. -/
inductive Fault where
  /-- the explicit overflow panic of linearise -/
  | overflow
  /-- index expression out of range -/
  | indexOutOfRange
  /-- slice expression bounds out of range -/
  | sliceBounds
  /-- make refused the length, the capacity or the allocation -/
  | makeslice
  deriving DecidableEq

/-- Subtraction of two `uint64` values. -/
def subU64 (a b : Nat) : Nat := (a + (2 ^ 64 - b % 2 ^ 64)) % 2 ^ 64

/-- Addition of two `uint64` values. -/
def addU64 (a b : Nat) : Nat := (a + b) % 2 ^ 64

/-- Wrap an integer into the range of `int` (64-bit two's complement). -/
def wrapInt64 (i : Int) : Int := (i + 2 ^ 63) % 2 ^ 64 - 2 ^ 63

/-- The conversion `int(x)` of a `uint64`. -/
def toInt64 (x : Nat) : Int := wrapInt64 (x : Int)

/-- The conversion `uint64(n)` of an `int`. -/
def toUint64 (n : Int) : Nat := (n % 2 ^ 64).toNat

/-- Bit length of `x`, looking at no more than `fuel` bits. -/
def bitLen : Nat → Nat → Nat
  | 0, _ => 0
  | fuel + 1, x => if x = 0 then 0 else bitLen fuel (x / 2) + 1

/-- `bits.Len64`: minimum number of bits needed to represent the `uint64` `x`. -/
def Len64 (x : Nat) : Nat := bitLen 64 (x % 2 ^ 64)

/-- `bits.LeadingZeros64`. -/
def LeadingZeros64 (x : Nat) : Nat := 64 - Len64 x

/-- The shift `1 << s` evaluated in type `int`. -/
def shlOne (s : Nat) : Int := wrapInt64 (2 ^ s)

/-- A Go slice that starts at the beginning of its backing array: `arr` is the array
from the start of the slice up to its capacity, `len` the length of the slice. -/
structure Slice (T : Type) where
  arr : List T
  len : Nat

/-- `cap(s)`. -/
def Slice.cap {T : Type} (s : Slice T) : Nat := s.arr.length

/-- `make([]T, len, cap)` once the run-time checks have passed. -/
def Slice.make {T : Type} [Inhabited T] (len cap : Nat) : Slice T :=
  ⟨List.replicate cap default, len⟩

/-- `append(s, e)`. Below capacity the element is stored in place. At capacity Go
allocates a new array whose capacity the language leaves to the runtime; the model
takes the smallest one (`Deque.WF.push_grow` shows that `Push` on a well-formed deque
appends below capacity). -/
def Slice.append {T : Type} (s : Slice T) (e : T) : Slice T :=
  if s.len < s.cap then ⟨s.arr.set s.len e, s.len + 1⟩
  else ⟨s.arr.take s.len ++ [e], s.len + 1⟩

/-- The builtin `copy(dst, src)` where `dst` is the window of `n` elements of `arr`
that starts at `off`. Returns the array after the copy and the number of elements
copied, `min(len(dst), len(src))`. -/
def copyWindow {T : Type} (arr : List T) (off n : Nat) (src : List T) : List T × Nat :=
  let k := min n src.length
  (arr.take off ++ src.take k ++ arr.drop (off + k), k)

/-- Deque implements a double ended queue. -/
structure Deque (T : Type) where
  elems : List T
  read : Nat
  write : Nat
  mask : Nat

namespace Deque

variable {T : Type} [Inhabited T]

/-- The zero value of `Deque[T]`: nil slice, all counters zero. -/
def fresh : Deque T := ⟨[], 0, 0, 0⟩

/-- `func (dq *Deque[T]) Empty() bool` -/
def Empty (dq : Deque T) : Bool := dq.read == dq.write

/-- `func (dq *Deque[T]) remainingCap() int` -/
def remainingCap (dq : Deque T) : Int :=
  wrapInt64 ((dq.elems.length : Int) - toInt64 (subU64 dq.write dq.read))

/-- The capacity `linearise` computes from `need` (lines 77 to 82 of the source):
`capacity := 1 << (64 - bits.LeadingZeros64(need-1))`, raised to 8 when smaller. -/
def roundCapacity (need : Nat) : Int :=
  let capacity := shlOne (64 - LeadingZeros64 (subU64 need 1))
  if capacity < 8 then 8 else capacity

/-- The allocation check of `makeslice` in the Go runtime, for a capacity `cap`,
elements of `elemSize` bytes and the allocation limit `maxAlloc`:
`mem, overflow := math.MulUintptr(et.Size_, uintptr(cap))`, and `make` panics when
`overflow || mem > maxAlloc`. -/
def allocRefused (elemSize maxAlloc cap : Nat) : Bool :=
  decide (2 ^ 64 ≤ elemSize * cap) || decide (maxAlloc < elemSize * cap)

/-- `func (dq *Deque[T]) linearise(n int) []T` -/
def linearise (dq : Deque T) (n : Int) : Except Fault (Slice T) :=
  let length := subU64 dq.write dq.read
  let need := addU64 length (toUint64 n)
  if need < length then .error .overflow
  else
    let capacity := roundCapacity need
    -- make([]T, length, capacity)
    if ¬ ((length : Int) ≤ capacity) then .error .makeslice
    else
      let types : Slice T := Slice.make length capacity.toNat
      let pivot := dq.read &&& dq.mask
      -- dq.elems[pivot:] and dq.elems[:pivot]
      if dq.elems.length < pivot then .error .sliceBounds
      else
        let c1 := copyWindow types.arr 0 types.len (dq.elems.drop pivot)
        let copied := c1.2
        let c2 := copyWindow c1.1 copied (types.len - copied) (dq.elems.take pivot)
        .ok ⟨c2.1, types.len⟩

/-- `func (dq *Deque[T]) linearise(n int) []T` for elements of `elemSize` bytes on a
runtime whose allocation limit is `maxAlloc` bytes: `make` also panics when the
allocation is refused. The result is the returned slice together with the state of
the receiver after the call; the body assigns to no field of `dq`, and `copy` writes
to the new array only. -/
def lineariseOn (elemSize maxAlloc : Nat) (dq : Deque T) (n : Int) :
    Except Fault (Slice T × Deque T) :=
  let length := subU64 dq.write dq.read
  let need := addU64 length (toUint64 n)
  if need < length then .error .overflow
  else
    let capacity := roundCapacity need
    -- make([]T, length, capacity)
    if allocRefused elemSize maxAlloc capacity.toNat = true ∨ ¬ ((length : Int) ≤ capacity) then
      .error .makeslice
    else
      let types : Slice T := Slice.make length capacity.toNat
      let pivot := dq.read &&& dq.mask
      -- dq.elems[pivot:] and dq.elems[:pivot]
      if dq.elems.length < pivot then .error .sliceBounds
      else
        let c1 := copyWindow types.arr 0 types.len (dq.elems.drop pivot)
        let copied := c1.2
        let c2 := copyWindow c1.1 copied (types.len - copied) (dq.elems.take pivot)
        .ok (⟨c2.1, types.len⟩, dq)

/-- `func (dq *Deque[T]) Push(e T)`: Push adds an element to the end. -/
def Push (dq : Deque T) (e : T) : Except Fault (Deque T) :=
  if dq.remainingCap ≥ 1 then
    let index := dq.write &&& dq.mask
    if index < dq.elems.length then
      .ok { dq with elems := dq.elems.set index e, write := addU64 dq.write 1 }
    else .error .indexOutOfRange
  else
    match dq.linearise 1 with
    | .error f => .error f
    | .ok elems =>
      let elems := elems.append e
      .ok { elems := elems.arr
            mask := subU64 elems.cap 1
            read := 0
            write := elems.len % 2 ^ 64 }

/-- `func (dq *Deque[T]) Shift() T`: Shift returns the first element or the zero
value. -/
def Shift (dq : Deque T) : Except Fault (T × Deque T) :=
  if dq.Empty then .ok (default, dq)
  else
    let index := dq.read &&& dq.mask
    match dq.elems[index]? with
    | none => .error .indexOutOfRange
    | some t => .ok (t, { dq with elems := dq.elems.set index default, read := addU64 dq.read 1 })

/-- `func (dq *Deque[T]) Pop() T`: Pop returns the last element or the zero value. -/
def Pop (dq : Deque T) : Except Fault (T × Deque T) :=
  if dq.Empty then .ok (default, dq)
  else
    let write := subU64 dq.write 1
    let index := write &&& dq.mask
    match dq.elems[index]? with
    | none => .error .indexOutOfRange
    | some t => .ok (t, { dq with elems := dq.elems.set index default, write := write })

end Deque

/-- A call of one of the four exported methods. -/
inductive Op (T : Type) where
  | push (v : T)
  | shift
  | pop
  | empty
  deriving DecidableEq

/-- What a call returns: nothing (`Push`), an element, or a boolean. -/
inductive Ret (T : Type) where
  | unit
  | val (v : T)
  | bool (b : Bool)
  deriving DecidableEq

namespace Deque

variable {T : Type} [Inhabited T]

/-- The result of a `Push` as the result of a call: it returns nothing. -/
def retUnit (r : Except Fault (Deque T)) : Except Fault (Ret T × Deque T) :=
  match r with
  | .error f => .error f
  | .ok dq' => .ok (.unit, dq')

/-- The result of a `Shift` or `Pop` as the result of a call: it returns an element. -/
def retVal (r : Except Fault (T × Deque T)) : Except Fault (Ret T × Deque T) :=
  match r with
  | .error f => .error f
  | .ok (t, dq') => .ok (.val t, dq')

/-- One method call on the deque: the returned value and the state after it. -/
def call (dq : Deque T) : Op T → Except Fault (Ret T × Deque T)
  | .push v => retUnit (dq.Push v)
  | .shift => retVal dq.Shift
  | .pop => retVal dq.Pop
  | .empty => .ok (.bool dq.Empty, dq)

/-- A sequence of method calls; the trace lists, for each call in order, what it
returned and the state it left. A fault of any call is the fault of the run. -/
def run (dq : Deque T) : List (Op T) → Except Fault (List (Ret T × Deque T))
  | [] => .ok []
  | op :: ops =>
    match dq.call op with
    | .error f => .error f
    | .ok (r, dq') =>
      match run dq' ops with
      | .error f => .error f
      | .ok tr => .ok ((r, dq') :: tr)

end Deque


/-! ## The list model of the specification -/

namespace ListModel

variable {T : Type} [Inhabited T]

/-- One call on the list model, in the words of the specification: `Push(v)` appends
`v` at the end, `Shift` removes and returns the first element (zero value if the list
is empty), `Pop` removes and returns the last element (zero value if the list is
empty), `Empty` reports whether the list is empty. -/
def call (l : List T) : Op T → Ret T × List T
  | .push v => (.unit, l ++ [v])
  | .shift => (.val (l.headD default), l.tail)
  | .pop => (.val (l.getLastD default), l.dropLast)
  | .empty => (.bool l.isEmpty, l)

/-- The values a sequence of calls returns on the list model. -/
def run (l : List T) : List (Op T) → List (Ret T)
  | [] => []
  | op :: ops => (call l op).1 :: run (call l op).2 ops

/-- The list the model holds after a sequence of calls. -/
def final (l : List T) : List (Op T) → List T
  | [] => l
  | op :: ops => final (call l op).2 ops

/-- No `Push` of the sequence is made while the list already holds `bound` elements. -/
def within (bound : Nat) (l : List T) : List (Op T) → Bool
  | [] => true
  | .push v :: ops => decide (l.length < bound) && within bound (l ++ [v]) ops
  | .shift :: ops => within bound l.tail ops
  | .pop :: ops => within bound l.dropLast ops
  | .empty :: ops => within bound l ops

end ListModel

/-! ## Abstraction and representation invariant -/

namespace Deque

variable {T : Type} [Inhabited T]

/-- Number of live elements, `dq.write - dq.read` in `uint64`. -/
def live (dq : Deque T) : Nat := subU64 dq.write dq.read

/-- Physical slot of the `i`-th live element, `(dq.read + i) & dq.mask` in `uint64`. -/
def slot (dq : Deque T) (i : Nat) : Nat := addU64 dq.read i &&& dq.mask

/-- Logical content: the live elements from head to tail. -/
def toList (dq : Deque T) : List T :=
  (List.range dq.live).map (fun i => dq.elems.getD (dq.slot i) default)

/-- The largest number of elements the deque can hold: a further growth would need
a capacity of `2 ^ 63`, which is not an `int`. -/
def maxLive : Nat := 2 ^ 62

/-- Representation invariant: the cursors are `uint64` values, the backing store is
empty with mask zero or has a power-of-two length (at most `2 ^ 62`) with
`mask = length - 1`, and the live count does not exceed the length. -/
structure WF (dq : Deque T) : Prop where
  read_lt : dq.read < 2 ^ 64
  write_lt : dq.write < 2 ^ 64
  shape : (dq.elems.length = 0 ∧ dq.mask = 0) ∨
    ∃ k, k ≤ 62 ∧ dq.elems.length = 2 ^ k ∧ dq.mask = 2 ^ k - 1
  live_le : dq.live ≤ dq.elems.length

/-- The state `Shift` leaves when the deque is not empty. -/
def shifted (dq : Deque T) : Deque T :=
  { dq with elems := dq.elems.set (dq.read &&& dq.mask) default, read := addU64 dq.read 1 }

/-- The state `Pop` leaves when the deque is not empty. -/
def popped (dq : Deque T) : Deque T :=
  { dq with elems := dq.elems.set (subU64 dq.write 1 &&& dq.mask) default,
            write := subU64 dq.write 1 }

/-- The state `Push` leaves when it stores in place. -/
def pushedInPlace (dq : Deque T) (e : T) : Deque T :=
  { dq with elems := dq.elems.set (dq.write &&& dq.mask) e, write := addU64 dq.write 1 }

/-- The state `Push` leaves when the store is full and fewer than `2 ^ 62` elements
are live: the live elements in logical order, the new element, zero values up to the
new capacity (twice the old length, and at least 8). -/
def grown (dq : Deque T) (e : T) : Deque T :=
  let cap := max 8 (2 * dq.elems.length)
  { elems := dq.toList ++ e :: List.replicate (cap - dq.live - 1) default
    read := 0
    write := dq.live + 1
    mask := cap - 1 }

/-- The state a run that started in `dq` and produced the trace `tr` ends in. -/
def last (dq : Deque T) (tr : List (Ret T × Deque T)) : Deque T :=
  (tr.map Prod.snd).getLastD dq

/-- Counting along a run: the number of `Push` calls, the number of `Shift`/`Pop`
calls made on a non-empty deque, and the state the run ends in. -/
def tally (dq : Deque T) : List (Op T) → Except Fault (Nat × Nat × Deque T)
  | [] => .ok (0, 0, dq)
  | op :: ops =>
    match dq.call op with
    | .error f => .error f
    | .ok (_, dq') =>
      match tally dq' ops with
      | .error f => .error f
      | .ok (p, r, d) =>
        match op with
        | .push _ => .ok (p + 1, r, d)
        | .shift => .ok (p, if dq.Empty then r else r + 1, d)
        | .pop => .ok (p, if dq.Empty then r else r + 1, d)
        | .empty => .ok (p, r, d)

/-- The calls `Push(x_1), Shift(), Push(x_2), Shift(), ...`. -/
def pushShift : List T → List (Op T)
  | [] => []
  | x :: xs => .push x :: .shift :: pushShift xs

/-- The elements that the calls of a trace returned, in order (`Shift` and `Pop`
return an element, `Push` and `Empty` do not). -/
def vals : List (Ret T × Deque T) → List T
  | [] => []
  | (.val v, _) :: tr => v :: vals tr
  | (_, _) :: tr => vals tr

/-- States obtained from the zero-value deque by calls that returned. -/
def Reachable (dq : Deque T) : Prop :=
  ∃ ops tr, (fresh : Deque T).run ops = .ok tr ∧ (fresh : Deque T).last tr = dq

end Deque

namespace Deque

variable {T : Type} [Inhabited T]

/-- The length of the backing store after a call. A call that panics leaves
`dq.elems` as it was: the only assignment to `dq.elems` is the one that ends a growing
`Push`, after `linearise` and `append` have returned. -/
def lenAfter (dq : Deque T) (r : Except Fault (Ret T × Deque T)) : Nat :=
  match r with
  | .ok (_, dq') => dq'.elems.length
  | .error _ => dq.elems.length

/-- No stale values: every physical slot outside the live range holds the zero
value. -/
def Clean (dq : Deque T) : Prop :=
  ∀ p, p < dq.elems.length → (∀ i, i < dq.live → dq.slot i ≠ p) →
    dq.elems[p]? = some default

/-- Number of `Push` calls in a sequence of calls. -/
def pushCount : List (Op T) → Nat
  | [] => 0
  | .push _ :: ops => pushCount ops + 1
  | .shift :: ops => pushCount ops
  | .pop :: ops => pushCount ops
  | .empty :: ops => pushCount ops

end Deque

/-! ## Arithmetic of the cursors and of the physical slots -/

namespace Deque
variable {T : Type}

theorem two_pow_le_62 {k : Nat} (hk : k ≤ 62) : 2 ^ k ≤ 2 ^ 62 :=
  Nat.pow_le_pow_right (by decide) hk

/-- Facts every well-formed deque with a non-empty store offers to the proofs below. -/
theorem WF.ring {dq : Deque T} (h : dq.WF) (hpos : 0 < dq.elems.length) :
    dq.elems.length ∣ 2 ^ 64 ∧ ∀ x, x &&& dq.mask = x % dq.elems.length := by
  rcases h.shape with ⟨h0, _⟩ | ⟨k, hk, hlen, hmask⟩
  · omega
  · refine ⟨?_, ?_⟩
    · rw [hlen]; exact Nat.pow_dvd_pow 2 (by omega)
    · intro x; rw [hmask, hlen]; exact Nat.and_pow_two_sub_one_eq_mod x k

theorem WF.len_le {dq : Deque T} (h : dq.WF) : dq.elems.length ≤ 2 ^ 62 := by
  rcases h.shape with ⟨h0, _⟩ | ⟨k, hk, hlen, _⟩
  · omega
  · rw [hlen]; exact two_pow_le_62 hk

theorem WF.slot_eq {dq : Deque T} (h : dq.WF) (hpos : 0 < dq.elems.length) (i : Nat) :
    dq.slot i = (dq.read + i) % dq.elems.length := by
  obtain ⟨hd, hm⟩ := h.ring hpos
  unfold slot addU64
  rw [hm]
  exact Nat.mod_mod_of_dvd _ hd

theorem slot_inj {c r i j : Nat} (hi : i < c) (hj : j < c)
    (h : (r + i) % c = (r + j) % c) : i = j := by
  have h1 : r + i ≡ r + j [MOD c] := h
  exact (Nat.ModEq.add_left_cancel' r h1).eq_of_lt_of_lt hi hj

theorem WF.slot_lt {dq : Deque T} (h : dq.WF) (hpos : 0 < dq.elems.length) (i : Nat) :
    dq.slot i < dq.elems.length := by
  rw [h.slot_eq hpos]; exact Nat.mod_lt _ hpos

theorem WF.slot_ne {dq : Deque T} (h : dq.WF) {i j : Nat} (hi : i < dq.elems.length)
    (hj : j < dq.elems.length) (hij : i ≠ j) : dq.slot i ≠ dq.slot j := by
  have hpos : 0 < dq.elems.length := by omega
  rw [h.slot_eq hpos, h.slot_eq hpos]
  exact fun e => hij (slot_inj hi hj e)

theorem WF.empty_iff {dq : Deque T} (h : dq.WF) : dq.Empty = true ↔ dq.live = 0 := by
  have h1 := h.read_lt
  have h2 := h.write_lt
  simp only [Empty, live, subU64, beq_iff_eq]
  omega

theorem WF.write_eq {dq : Deque T} (h : dq.WF) : dq.write = addU64 dq.read dq.live := by
  have h1 := h.read_lt
  have h2 := h.write_lt
  simp only [live, subU64, addU64]
  omega

theorem toList_length [Inhabited T] (dq : Deque T) : dq.toList.length = dq.live := by
  simp [toList]

theorem live_lt (dq : Deque T) : dq.live < 2 ^ 64 := by
  unfold live subU64; omega

/-- Same store length and mask, well-formed cursors: still well formed. -/
theorem WF.of_same_store {dq dq' : Deque T} (h : dq.WF) (hl : dq'.elems.length = dq.elems.length)
    (hm : dq'.mask = dq.mask) (hr : dq'.read < 2 ^ 64) (hw : dq'.write < 2 ^ 64)
    (hlive : dq'.live ≤ dq.elems.length) : dq'.WF :=
  ⟨hr, hw, by rw [hl, hm]; exact h.shape, by rw [hl]; exact hlive⟩

theorem WF.shift_nonempty [Inhabited T] {dq : Deque T} (h : dq.WF) (hne : dq.live ≠ 0) :
    dq.Shift = .ok (dq.elems.getD (dq.slot 0) default, dq.shifted) := by
  have hE : dq.Empty = false := by
    rw [← Bool.not_eq_true, h.empty_iff]; exact hne
  have hl := h.live_le
  have hpos : 0 < dq.elems.length := by omega
  have hs := h.slot_lt hpos 0
  have hslot : dq.slot 0 = dq.read &&& dq.mask := by
    have := h.read_lt
    unfold slot addU64
    rw [Nat.add_zero, Nat.mod_eq_of_lt this]
  rw [hslot] at hs
  unfold Shift
  simp only [hE, Bool.false_eq_true, if_false]
  rw [List.getElem?_eq_getElem hs, hslot]
  simp [shifted, List.getD_eq_getElem?_getD, List.getElem?_eq_getElem hs]

theorem WF.shifted_wf [Inhabited T] {dq : Deque T} (h : dq.WF) (hne : dq.live ≠ 0) :
    dq.shifted.WF ∧ dq.shifted.live = dq.live - 1 := by
  have h1 := h.read_lt
  have h2 := h.write_lt
  have h3 := h.live_le
  have hlive : dq.shifted.live = dq.live - 1 := by
    simp only [shifted, live, subU64, addU64] at hne ⊢
    omega
  refine ⟨h.of_same_store (by simp [shifted]) rfl ?_ h2 ?_, hlive⟩
  · simp only [shifted, addU64]; omega
  · rw [hlive]; omega

theorem WF.shifted_toList [Inhabited T] {dq : Deque T} (h : dq.WF) (hne : dq.live ≠ 0) :
    dq.shifted.toList = dq.toList.tail := by
  have h3 := h.live_le
  have hpos : 0 < dq.elems.length := by omega
  obtain ⟨hwf, hlive⟩ := h.shifted_wf hne
  obtain ⟨n, hn⟩ : ∃ n, dq.live = n + 1 := ⟨dq.live - 1, by omega⟩
  unfold toList
  rw [hlive, hn, List.range_succ_eq_map, List.map_cons, List.tail_cons, List.map_map]
  apply List.map_congr_left
  intro i hi
  have hi' : i < n := List.mem_range.mp hi
  have hs : dq.shifted.slot i = dq.slot (i + 1) := by
    have h1 := h.read_lt
    simp only [slot, shifted, addU64]
    congr 1
    omega
  have hne' : dq.slot 0 ≠ dq.slot (i + 1) := h.slot_ne (by omega) (by omega) (by omega)
  have hz : dq.read &&& dq.mask = dq.slot 0 := by
    have h1 := h.read_lt
    simp only [slot, addU64]
    congr 1
    omega
  simp only [Function.comp, hs, List.getD_eq_getElem?_getD]
  simp only [shifted, hz, List.getElem?_set_ne hne']

theorem WF.pop_nonempty [Inhabited T] {dq : Deque T} (h : dq.WF) (hne : dq.live ≠ 0) :
    dq.Pop = .ok (dq.elems.getD (dq.slot (dq.live - 1)) default, dq.popped) := by
  have hE : dq.Empty = false := by
    rw [← Bool.not_eq_true, h.empty_iff]; exact hne
  have hl := h.live_le
  have hpos : 0 < dq.elems.length := by omega
  have hs := h.slot_lt hpos (dq.live - 1)
  have hslot : dq.slot (dq.live - 1) = subU64 dq.write 1 &&& dq.mask := by
    have h1 := h.read_lt
    have h2 := h.write_lt
    have e : addU64 dq.read (dq.live - 1) = subU64 dq.write 1 := by
      simp only [live, addU64, subU64] at hne ⊢
      omega
    simp only [slot, e]
  rw [hslot] at hs
  unfold Pop
  simp only [hE, Bool.false_eq_true, if_false]
  rw [List.getElem?_eq_getElem hs, hslot]
  simp [popped, List.getD_eq_getElem?_getD, List.getElem?_eq_getElem hs]

theorem WF.popped_wf [Inhabited T] {dq : Deque T} (h : dq.WF) (hne : dq.live ≠ 0) :
    dq.popped.WF ∧ dq.popped.live = dq.live - 1 := by
  have h1 := h.read_lt
  have h2 := h.write_lt
  have h3 := h.live_le
  have hlive : dq.popped.live = dq.live - 1 := by
    simp only [popped, live, subU64] at hne ⊢
    omega
  refine ⟨h.of_same_store (by simp [popped]) rfl h1 ?_ ?_, hlive⟩
  · simp only [popped, subU64]; omega
  · rw [hlive]; omega

theorem WF.popped_toList [Inhabited T] {dq : Deque T} (h : dq.WF) (hne : dq.live ≠ 0) :
    dq.popped.toList = dq.toList.dropLast := by
  have h3 := h.live_le
  have hpos : 0 < dq.elems.length := by omega
  obtain ⟨hwf, hlive⟩ := h.popped_wf hne
  obtain ⟨n, hn⟩ : ∃ n, dq.live = n + 1 := ⟨dq.live - 1, by omega⟩
  unfold toList
  rw [hlive, hn, List.range_succ, List.map_append, List.map_singleton, List.dropLast_concat]
  apply List.map_congr_left
  intro i hi
  have hi' : i < n := List.mem_range.mp hi
  have hs : dq.popped.slot i = dq.slot i := rfl
  have hne' : dq.slot n ≠ dq.slot i := h.slot_ne (by omega) (by omega) (by omega)
  have hz : subU64 dq.write 1 &&& dq.mask = dq.slot n := by
    have h1 := h.read_lt
    have h2 := h.write_lt
    have e : subU64 dq.write 1 = addU64 dq.read n := by
      simp only [live, addU64, subU64] at hn ⊢
      omega
    simp only [slot, e]
  simp only [hs, List.getD_eq_getElem?_getD]
  simp only [popped, hz, List.getElem?_set_ne hne']

theorem toList_head [Inhabited T] (dq : Deque T) (hne : dq.live ≠ 0) :
    dq.toList.headD default = dq.elems.getD (dq.slot 0) default := by
  obtain ⟨n, hn⟩ : ∃ n, dq.live = n + 1 := ⟨dq.live - 1, by omega⟩
  unfold toList
  rw [hn, List.range_succ_eq_map]
  rfl

theorem toList_last [Inhabited T] (dq : Deque T) (hne : dq.live ≠ 0) :
    dq.toList.getLastD default = dq.elems.getD (dq.slot (dq.live - 1)) default := by
  obtain ⟨n, hn⟩ : ∃ n, dq.live = n + 1 := ⟨dq.live - 1, by omega⟩
  unfold toList
  rw [hn, List.range_succ, List.map_append, List.map_singleton, List.getLastD_concat]
  rfl

theorem toList_of_live_zero [Inhabited T] (dq : Deque T) (h0 : dq.live = 0) :
    dq.toList = [] := by
  unfold toList; rw [h0]; rfl

theorem wrapInt64_of_range {i : Int} (h1 : -2 ^ 63 ≤ i) (h2 : i < 2 ^ 63) : wrapInt64 i = i := by
  unfold wrapInt64; omega

theorem WF.remainingCap_eq {dq : Deque T} (h : dq.WF) :
    dq.remainingCap = (dq.elems.length : Int) - (dq.live : Int) := by
  have h1 := h.len_le
  have h2 := h.live_le
  unfold remainingCap toInt64
  change wrapInt64 ((dq.elems.length : Int) - wrapInt64 (dq.live : Int)) = _
  rw [wrapInt64_of_range (i := (dq.live : Int)) (by omega) (by omega)]
  exact wrapInt64_of_range (by omega) (by omega)

theorem WF.push_in_place [Inhabited T] {dq : Deque T} (h : dq.WF) (hlt : dq.live < dq.elems.length) (e : T) :
    dq.Push e = .ok (dq.pushedInPlace e) := by
  have hpos : 0 < dq.elems.length := by omega
  have hs := h.slot_lt hpos dq.live
  have hslot : dq.slot dq.live = dq.write &&& dq.mask := by
    simp only [slot, ← h.write_eq]
  rw [hslot] at hs
  have hrc : dq.remainingCap ≥ 1 := by rw [h.remainingCap_eq]; omega
  unfold Push
  simp only [hrc, hs, if_true]
  rfl

theorem WF.pushedInPlace_wf {dq : Deque T} (h : dq.WF) (hlt : dq.live < dq.elems.length) (e : T) :
    (dq.pushedInPlace e).WF ∧ (dq.pushedInPlace e).live = dq.live + 1 := by
  have h1 := h.read_lt
  have h2 := h.write_lt
  have h3 := h.len_le
  have hlive : (dq.pushedInPlace e).live = dq.live + 1 := by
    simp only [pushedInPlace, live, subU64, addU64] at hlt ⊢
    omega
  refine ⟨h.of_same_store (by simp [pushedInPlace]) rfl h1 ?_ ?_, hlive⟩
  · simp only [pushedInPlace, addU64]; omega
  · rw [hlive]; omega

theorem WF.pushedInPlace_toList [Inhabited T] {dq : Deque T} (h : dq.WF)
    (hlt : dq.live < dq.elems.length) (e : T) :
    (dq.pushedInPlace e).toList = dq.toList ++ [e] := by
  have hpos : 0 < dq.elems.length := by omega
  obtain ⟨hwf, hlive⟩ := h.pushedInPlace_wf hlt e
  have hz : dq.write &&& dq.mask = dq.slot dq.live := by
    simp only [slot, ← h.write_eq]
  have hs := h.slot_lt hpos dq.live
  unfold toList
  rw [hlive, List.range_succ, List.map_append, List.map_singleton]
  congr 1
  · apply List.map_congr_left
    intro i hi
    have hi' : i < dq.live := List.mem_range.mp hi
    have hsl : (dq.pushedInPlace e).slot i = dq.slot i := rfl
    have hne' : dq.slot dq.live ≠ dq.slot i := h.slot_ne (by omega) (by omega) (by omega)
    simp only [hsl, List.getD_eq_getElem?_getD]
    simp only [pushedInPlace, hz, List.getElem?_set_ne hne']
  · have hsl : (dq.pushedInPlace e).slot dq.live = dq.slot dq.live := rfl
    simp only [hsl, List.getD_eq_getElem?_getD]
    simp only [pushedInPlace, hz, List.getElem?_set_self hs, Option.getD_some]

theorem bitLen_eq {fuel j x : Nat} (hj : j < fuel) (h1 : 2 ^ j ≤ x) (h2 : x < 2 ^ (j + 1)) :
    bitLen fuel x = j + 1 := by
  induction fuel generalizing j x with
  | zero => omega
  | succ f ih =>
    have hp : 0 < 2 ^ j := Nat.two_pow_pos _
    have hx : x ≠ 0 := by omega
    simp only [bitLen, hx, if_false]
    cases j with
    | zero =>
      have : x / 2 = 0 := by simp at h2; omega
      rw [this]
      cases f <;> simp [bitLen]
    | succ j =>
      have e1 : 2 ^ (j + 1) = 2 * 2 ^ j := by rw [Nat.pow_succ]; omega
      have e2 : 2 ^ (j + 1 + 1) = 2 * 2 ^ (j + 1) := by rw [Nat.pow_succ]; omega
      rw [ih (j := j) (by omega) (by omega) (by omega)]

theorem Len64_eq {j x : Nat} (hj : j < 64) (h1 : 2 ^ j ≤ x) (h2 : x < 2 ^ (j + 1)) :
    Len64 x = j + 1 := by
  have h3 : 2 ^ (j + 1) ≤ 2 ^ 64 := Nat.pow_le_pow_right (by decide) (by omega)
  unfold Len64
  rw [Nat.mod_eq_of_lt (by omega)]
  exact bitLen_eq hj h1 h2

theorem roundCapacity_one : roundCapacity 1 = 8 := by decide

theorem roundCapacity_eq {j need : Nat} (hj : j + 1 ≤ 62) (h1 : 2 ^ j < need)
    (h2 : need ≤ 2 ^ (j + 1)) : roundCapacity need = max 8 (2 ^ (j + 1) : Nat) := by
  have h3 : 2 ^ (j + 1) ≤ 2 ^ 62 := Nat.pow_le_pow_right (by decide) hj
  have hp : 0 < 2 ^ j := Nat.two_pow_pos _
  have hs : subU64 need 1 = need - 1 := by unfold subU64; omega
  have hl : Len64 (need - 1) = j + 1 := Len64_eq (by omega) (by omega) (by omega)
  have hsh : shlOne (j + 1) = ((2 ^ (j + 1) : Nat) : Int) := by
    unfold shlOne
    rw [wrapInt64_of_range]
    · push_cast; rfl
    · have : (0 : Int) ≤ 2 ^ (j + 1) := by positivity
      omega
    · have : ((2 ^ (j + 1) : Nat) : Int) ≤ ((2 ^ 62 : Nat) : Int) := by exact_mod_cast h3
      push_cast at this
      omega
  unfold roundCapacity LeadingZeros64
  rw [hs, hl]
  have : 64 - (64 - (j + 1)) = j + 1 := by omega
  rw [this, hsh]
  simp only
  omega

theorem roundCapacity_top : roundCapacity (2 ^ 62 + 1) = 8 := by decide

/-- The two `copy` calls of `linearise` unwrap the ring: the first `n` elements of
the store rotated to start at `p`, then the untouched zero values. -/
theorem copy_unwrap (E : List T) (z : T) {p n C : Nat} (hp : p ≤ E.length)
    (hn : n ≤ E.length) (hC : n ≤ C) :
    (copyWindow (copyWindow (List.replicate C z) 0 n (E.drop p)).1
        (copyWindow (List.replicate C z) 0 n (E.drop p)).2
        (n - (copyWindow (List.replicate C z) 0 n (E.drop p)).2) (E.take p)).1
      = (E.rotate p).take n ++ List.replicate (C - n) z := by
  rw [List.rotate_eq_drop_append_take hp, List.take_append_eq_append_take]
  simp only [copyWindow, List.take_zero, List.nil_append, Nat.zero_add, List.length_drop,
    List.length_take, List.drop_replicate]
  by_cases hcase : n ≤ E.length - p
  · have e1 : min n (E.length - p) = n := by omega
    have e2 : min (n - n) (min p E.length) = 0 := by omega
    have e3 : n - (E.length - p) = 0 := by omega
    have e4 : (List.take n (List.drop p E)).length = n := by
      rw [List.length_take, List.length_drop]; omega
    rw [e1, e2, e3]
    simp only [List.take_zero, List.append_nil, Nat.add_zero]
    rw [List.take_left' e4, List.drop_left' e4]
  · have e1 : min n (E.length - p) = E.length - p := by omega
    have e2 : min (n - (E.length - p)) (min p E.length) = n - (E.length - p) := by omega
    have e4 : (List.drop p E).length = E.length - p := List.length_drop p E
    have e5 : List.take (E.length - p) (List.drop p E) = List.drop p E := by
      rw [← e4]; exact List.take_length _
    have e6 : List.take n (List.drop p E) = List.drop p E :=
      List.take_of_length_le (by omega)
    have e7 : E.length - p + (n - (E.length - p)) = n := by omega
    have e8 : C - (E.length - p) - (n - (E.length - p)) = C - n := by omega
    have e9 : List.drop n (List.drop p E ++ List.replicate (C - (E.length - p)) z)
        = List.replicate (C - n) z := by
      rw [List.drop_append_eq_append_drop, List.drop_of_length_le (by rw [e4]; omega),
        List.nil_append, List.drop_replicate, e4, e8]
    rw [e1, e2, e5, e6, e7, e9, List.take_left' e4]

/-- What `linearise` returns once its three checks pass. -/
theorem linearise_eq [Inhabited T] (dq : Deque T) (n : Int) {C : Nat}
    (hneed : ¬ addU64 dq.live (toUint64 n) < dq.live)
    (hcap : roundCapacity (addU64 dq.live (toUint64 n)) = (C : Int))
    (hC : dq.live ≤ C) (hp : dq.read &&& dq.mask ≤ dq.elems.length)
    (hl : dq.live ≤ dq.elems.length) :
    dq.linearise n = .ok ⟨(dq.elems.rotate (dq.read &&& dq.mask)).take dq.live ++
      List.replicate (C - dq.live) default, dq.live⟩ := by
  have hmk : ((dq.live : Nat) : Int) ≤ (C : Int) := by exact_mod_cast hC
  have hp' : ¬ dq.elems.length < dq.read &&& dq.mask := by omega
  unfold linearise
  simp only [live] at hneed hcap hmk hl hC ⊢
  simp only [hneed, hcap, hmk, hp', if_false, not_true_eq_false, Slice.make, Int.toNat_ofNat]
  rw [copy_unwrap dq.elems default hp hl hC]

theorem WF.toList_eq_rotate [Inhabited T] {dq : Deque T} (h : dq.WF)
    (hpos : 0 < dq.elems.length) :
    dq.toList = (dq.elems.rotate (dq.read &&& dq.mask)).take dq.live := by
  have hl := h.live_le
  obtain ⟨hd, hm⟩ := h.ring hpos
  apply List.ext_getElem
  · rw [toList_length, List.length_take, List.length_rotate]; omega
  · intro i h1 h2
    rw [toList_length] at h1
    have hs := h.slot_lt hpos i
    simp only [toList, List.getElem_map, List.getElem_range, List.getElem_take,
      List.getElem_rotate, List.getD_eq_getElem?_getD, List.getElem?_eq_getElem hs,
      Option.getD_some]
    congr 1
    rw [h.slot_eq hpos, hm, Nat.add_comm i, Nat.mod_add_mod]

theorem set_append_replicate (L : List T) (e z : T) {m : Nat} (hm : 0 < m) :
    (L ++ List.replicate m z).set L.length e = L ++ e :: List.replicate (m - 1) z := by
  obtain ⟨k, rfl⟩ : ∃ k, m = k + 1 := ⟨m - 1, by omega⟩
  rw [List.set_append_right _ _ (Nat.le_refl _), Nat.sub_self, List.replicate_succ,
    List.set_cons_zero, Nat.add_sub_cancel]

theorem toUint64_one : toUint64 1 = 1 := by decide

theorem WF.live_full_lt {dq : Deque T} (_h : dq.WF) (hfull : dq.live = dq.elems.length)
    (hlt : dq.live < 2 ^ 62) {k : Nat} (hlen : dq.elems.length = 2 ^ k) : k + 1 ≤ 62 := by
  rcases Nat.lt_or_ge k 62 with h1 | h1
  · omega
  · have h2 : 2 ^ 62 ≤ 2 ^ k := Nat.pow_le_pow_right (by decide) h1
    omega

/-- Capacity chosen by a growing `Push` on a well-formed full deque: twice the old
length, and at least 8. -/
theorem WF.grow_capacity {dq : Deque T} (h : dq.WF) (hfull : dq.live = dq.elems.length)
    (hlt : dq.live < 2 ^ 62) :
    roundCapacity (addU64 dq.live (toUint64 1)) = ((max 8 (2 * dq.elems.length) : Nat) : Int) := by
  have hadd : addU64 dq.live (toUint64 1) = dq.live + 1 := by
    rw [toUint64_one]; unfold addU64; omega
  rw [hadd]
  rcases h.shape with ⟨h0, _⟩ | ⟨k, hk, hlen, _⟩
  · rw [hfull, h0]; exact roundCapacity_one
  · have hk61 := h.live_full_lt hfull hlt hlen
    have hp := Nat.two_pow_pos k
    have e1 : 2 ^ (k + 1) = 2 * 2 ^ k := by rw [Nat.pow_succ]; omega
    rw [hfull, hlen, roundCapacity_eq (j := k) hk61 (by omega) (by omega), e1]

theorem WF.pivot_le {dq : Deque T} (h : dq.WF) : dq.read &&& dq.mask ≤ dq.elems.length := by
  rcases Nat.eq_zero_or_pos dq.elems.length with h0 | hpos
  · rcases h.shape with ⟨_, hm⟩ | ⟨k, _, hlen, _⟩
    · rw [hm]; simp
    · have := Nat.two_pow_pos k; omega
  · rw [(h.ring hpos).2]; exact Nat.le_of_lt (Nat.mod_lt _ hpos)

theorem WF.linearise_rotate_eq [Inhabited T] {dq : Deque T} (h : dq.WF) :
    (dq.elems.rotate (dq.read &&& dq.mask)).take dq.live = dq.toList := by
  rcases Nat.eq_zero_or_pos dq.elems.length with h0 | hpos
  · have hl := h.live_le
    have h1 : dq.live = 0 := by omega
    rw [toList_of_live_zero dq h1, h1, List.take_zero]
  · exact (h.toList_eq_rotate hpos).symm

theorem WF.push_grow [Inhabited T] {dq : Deque T} (h : dq.WF)
    (hfull : dq.live = dq.elems.length) (hlt : dq.live < 2 ^ 62) (e : T) :
    dq.Push e = .ok (dq.grown e) := by
  have hrc : ¬ dq.remainingCap ≥ 1 := by rw [h.remainingCap_eq]; omega
  have hcap := h.grow_capacity hfull hlt
  have hC : dq.live < (max 8 (2 * dq.elems.length)) := by
    omega
  have hC64 : (max 8 (2 * dq.elems.length)) < 2 ^ 64 := by
    omega
  have hneed : ¬ addU64 dq.live (toUint64 1) < dq.live := by
    rw [toUint64_one]; unfold addU64; omega
  have hlen := toList_length dq
  unfold Push grown
  generalize (max 8 (2 * dq.elems.length)) = C at hcap hC hC64
  have hlin := linearise_eq dq 1 hneed hcap (Nat.le_of_lt hC) h.pivot_le h.live_le
  rw [h.linearise_rotate_eq] at hlin
  have hlt' : dq.live < dq.live + (C - dq.live) := by omega
  have hset := set_append_replicate dq.toList e (default : T) (m := C - dq.live) (by omega)
  rw [hlen] at hset
  simp only [hrc, if_false, hlin, Slice.append, Slice.cap, List.length_append,
    List.length_replicate, hlen, hlt', if_true, hset, List.length_cons]
  have e1 : dq.live + (C - dq.live - 1 + 1) = C := by omega
  have e2 : subU64 C 1 = C - 1 := by unfold subU64; omega
  have e3 : (dq.live + 1) % 2 ^ 64 = dq.live + 1 := by omega
  rw [e1, e2, e3]

/-- With `2 ^ 62` live elements the store is full and cannot grow: the capacity
computed for `2 ^ 62 + 1` is `1 << 63`, negative as an `int`, so it is raised to 8
and `make` rejects a length above the capacity. -/
theorem WF.push_full_fault [Inhabited T] {dq : Deque T} (h : dq.WF)
    (htop : dq.live = 2 ^ 62) (e : T) : dq.Push e = .error .makeslice := by
  have hlen : dq.elems.length = 2 ^ 62 := by
    have h1 := h.len_le
    have h2 := h.live_le
    omega
  have hrc : ¬ dq.remainingCap ≥ 1 := by rw [h.remainingCap_eq]; omega
  have hadd : addU64 dq.live (toUint64 1) = 2 ^ 62 + 1 := by
    rw [toUint64_one, htop]; decide
  have hneed : ¬ addU64 dq.live (toUint64 1) < dq.live := by rw [hadd, htop]; decide
  have hmk : ¬ ((dq.live : Int) ≤ roundCapacity (addU64 dq.live (toUint64 1))) := by
    rw [hadd, roundCapacity_top, htop]; decide
  unfold Push
  simp only [hrc, if_false]
  unfold linearise
  simp only [live] at hneed hmk
  simp only [hneed, hmk, if_false, not_false_eq_true, if_true]

theorem map_range_getD_append (L R : List T) (z : T) :
    (List.range L.length).map (fun i => (L ++ R).getD i z) = L := by
  apply List.ext_getElem
  · simp
  · intro i h1 h2
    simp only [List.getElem_map, List.getElem_range, List.getD_eq_getElem?_getD]
    rw [List.getElem?_append_left h2, List.getElem?_eq_getElem h2, Option.getD_some]

theorem WF.grown_wf [Inhabited T] {dq : Deque T} (h : dq.WF)
    (hfull : dq.live = dq.elems.length) (hlt : dq.live < 2 ^ 62) (e : T) :
    (dq.grown e).WF ∧ (dq.grown e).live = dq.live + 1 ∧
      (dq.grown e).elems.length = (max 8 (2 * dq.elems.length)) := by
  have hlen := toList_length dq
  have hC : dq.live < (max 8 (2 * dq.elems.length)) := by
    omega
  have hlive : (dq.grown e).live = dq.live + 1 := by
    simp only [grown, live, subU64] at hlt ⊢
    omega
  have hl : (dq.grown e).elems.length
      = (max 8 (2 * dq.elems.length)) := by
    simp only [grown, List.length_append, List.length_cons, List.length_replicate, hlen]
    omega
  refine ⟨⟨by simp [grown], ?_, ?_, ?_⟩, hlive, hl⟩
  · simp only [grown]; omega
  · right
    rw [hl]
    rcases h.shape with ⟨h0, _⟩ | ⟨k, hk, hlen', _⟩
    · exact ⟨3, by omega, by simp [h0], by simp [h0, grown]⟩
    · have hk61 := h.live_full_lt hfull hlt hlen'
      have hp := Nat.two_pow_pos k
      rcases Nat.lt_or_ge k 2 with hk2 | hk2
      · have h4 : 2 ^ k ≤ 2 ^ 1 := Nat.pow_le_pow_right (by decide) (by omega)
        have hmx : max 8 (2 * dq.elems.length) = 2 ^ 3 := by omega
        exact ⟨3, by omega, hmx, by simp only [grown]; rw [hmx]⟩
      · have h4 : 2 ^ 2 ≤ 2 ^ k := Nat.pow_le_pow_right (by decide) hk2
        have e1 : 2 ^ (k + 1) = 2 * 2 ^ k := by rw [Nat.pow_succ]; omega
        have hmx : max 8 (2 * dq.elems.length) = 2 ^ (k + 1) := by omega
        exact ⟨k + 1, hk61, hmx, by simp only [grown]; rw [hmx]⟩
  · rw [hlive, hl]; omega

theorem WF.grown_toList [Inhabited T] {dq : Deque T} (h : dq.WF)
    (hfull : dq.live = dq.elems.length) (hlt : dq.live < 2 ^ 62) (e : T) :
    (dq.grown e).toList = dq.toList ++ [e] := by
  obtain ⟨hwf, hlive, hl⟩ := h.grown_wf hfull hlt e
  have hlen := toList_length dq
  have hC : dq.live < (dq.grown e).elems.length := by
    rw [hl]; omega
  have hslot : ∀ i, i ≤ dq.live → (dq.grown e).slot i = i := by
    intro i hi
    rw [hwf.slot_eq (by omega)]
    have : (dq.grown e).read = 0 := rfl
    rw [this, Nat.zero_add]
    exact Nat.mod_eq_of_lt (by omega)
  have hel : (dq.grown e).elems = dq.toList ++ e :: List.replicate
      ((max 8 (2 * dq.elems.length)) - dq.live - 1) default := rfl
  have hA : List.map (fun i => (dq.grown e).elems.getD ((dq.grown e).slot i) default)
      (List.range dq.live) = dq.toList := by
    have hm : List.map (fun i => (dq.grown e).elems.getD ((dq.grown e).slot i) default)
        (List.range dq.live)
        = List.map (fun i => (dq.grown e).elems.getD i default) (List.range dq.live) := by
      apply List.map_congr_left
      intro i hi
      rw [hslot i (Nat.le_of_lt (List.mem_range.mp hi))]
    rw [hm, hel]
    have := map_range_getD_append dq.toList (e :: List.replicate
      ((max 8 (2 * dq.elems.length)) - dq.live - 1) default) default
    rw [hlen] at this
    exact this
  have hB : (dq.grown e).elems.getD ((dq.grown e).slot dq.live) default = e := by
    rw [hslot dq.live (Nat.le_refl _), hel, List.getD_eq_getElem?_getD,
      List.getElem?_append_right (by omega), hlen, Nat.sub_self]
    simp
  have key : (dq.grown e).toList = List.map
      (fun i => (dq.grown e).elems.getD ((dq.grown e).slot i) default)
      (List.range (dq.grown e).live) := rfl
  rw [key, hlive, List.range_succ, List.map_append, List.map_singleton, hA, hB]

theorem fresh_live : (fresh : Deque T).live = 0 := by
  simp only [live, fresh, subU64]
  omega

theorem fresh_wf : (fresh : Deque T).WF :=
  ⟨Nat.two_pow_pos 64, Nat.two_pow_pos 64, Or.inl ⟨rfl, rfl⟩, by rw [fresh_live]; exact Nat.zero_le _⟩

theorem fresh_toList [Inhabited T] : (fresh : Deque T).toList = [] :=
  toList_of_live_zero _ fresh_live

theorem WF.live_le_max {dq : Deque T} (h : dq.WF) : dq.live ≤ 2 ^ 62 :=
  Nat.le_trans h.live_le h.len_le

theorem WF.empty_eq [Inhabited T] {dq : Deque T} (h : dq.WF) :
    dq.Empty = dq.toList.isEmpty := by
  have hlen := toList_length dq
  rcases Nat.eq_zero_or_pos dq.live with h0 | hpos
  · rw [h.empty_iff.mpr h0, toList_of_live_zero dq h0]; rfl
  · have hE : dq.Empty = false := by
      rw [← Bool.not_eq_true, h.empty_iff]; omega
    rw [hE]
    cases hl : dq.toList with
    | nil => rw [hl] at hlen; simp at hlen; omega
    | cons a l => rfl

theorem WF.push_spec [Inhabited T] {dq : Deque T} (h : dq.WF) (hlt : dq.live < 2 ^ 62) (e : T) :
    ∃ dq', dq.Push e = .ok dq' ∧ dq'.WF ∧ dq'.toList = dq.toList ++ [e] ∧
      dq'.live = dq.live + 1 ∧
      dq'.elems.length = (if dq.live < dq.elems.length then dq.elems.length
        else max 8 (2 * dq.elems.length)) := by
  rcases Nat.lt_or_ge dq.live dq.elems.length with hl | hl
  · obtain ⟨hwf, hlive⟩ := h.pushedInPlace_wf hl e
    exact ⟨_, h.push_in_place hl e, hwf, h.pushedInPlace_toList hl e, hlive,
      by rw [if_pos hl]; simp [pushedInPlace]⟩
  · have hfull : dq.live = dq.elems.length := Nat.le_antisymm h.live_le hl
    obtain ⟨hwf, hlive, hlen⟩ := h.grown_wf hfull hlt e
    exact ⟨_, h.push_grow hfull hlt e, hwf, h.grown_toList hfull hlt e, hlive,
      by rw [if_neg (by omega)]; exact hlen⟩

theorem WF.shift_spec [Inhabited T] {dq : Deque T} (h : dq.WF) :
    ∃ dq', dq.Shift = .ok (dq.toList.headD default, dq') ∧ dq'.WF ∧
      dq'.toList = dq.toList.tail ∧ dq'.live = dq.live - 1 ∧
      dq'.elems.length = dq.elems.length := by
  rcases Nat.eq_zero_or_pos dq.live with h0 | hpos
  · refine ⟨dq, ?_, h, ?_, by omega, rfl⟩
    · unfold Shift
      rw [h.empty_iff.mpr h0, toList_of_live_zero dq h0]; rfl
    · rw [toList_of_live_zero dq h0]; rfl
  · have hne : dq.live ≠ 0 := by omega
    obtain ⟨hwf, hlive⟩ := h.shifted_wf hne
    refine ⟨_, ?_, hwf, h.shifted_toList hne, hlive, by simp [shifted]⟩
    rw [toList_head dq hne]; exact h.shift_nonempty hne

theorem WF.pop_spec [Inhabited T] {dq : Deque T} (h : dq.WF) :
    ∃ dq', dq.Pop = .ok (dq.toList.getLastD default, dq') ∧ dq'.WF ∧
      dq'.toList = dq.toList.dropLast ∧ dq'.live = dq.live - 1 ∧
      dq'.elems.length = dq.elems.length := by
  rcases Nat.eq_zero_or_pos dq.live with h0 | hpos
  · refine ⟨dq, ?_, h, ?_, by omega, rfl⟩
    · unfold Pop
      rw [h.empty_iff.mpr h0, toList_of_live_zero dq h0]; rfl
    · rw [toList_of_live_zero dq h0]; rfl
  · have hne : dq.live ≠ 0 := by omega
    obtain ⟨hwf, hlive⟩ := h.popped_wf hne
    refine ⟨_, ?_, hwf, h.popped_toList hne, hlive, by simp [popped]⟩
    rw [toList_last dq hne]; exact h.pop_nonempty hne

theorem call_push_ok [Inhabited T] {dq dq' : Deque T} {v : T} (h1 : dq.Push v = .ok dq') :
    dq.call (.push v) = .ok (.unit, dq') := by
  show retUnit (dq.Push v) = _
  rw [h1]
  rfl

theorem call_push_fault [Inhabited T] {dq : Deque T} {v : T} {f : Fault}
    (h1 : dq.Push v = .error f) : dq.call (.push v) = .error f := by
  show retUnit (dq.Push v) = _
  rw [h1]
  rfl

theorem call_shift_ok [Inhabited T] {dq dq' : Deque T} {t : T}
    (h1 : dq.Shift = .ok (t, dq')) : dq.call .shift = .ok (.val t, dq') := by
  show retVal dq.Shift = _
  rw [h1]
  rfl

theorem call_pop_ok [Inhabited T] {dq dq' : Deque T} {t : T}
    (h1 : dq.Pop = .ok (t, dq')) : dq.call .pop = .ok (.val t, dq') := by
  show retVal dq.Pop = _
  rw [h1]
  rfl

theorem call_empty [Inhabited T] (dq : Deque T) :
    dq.call .empty = .ok (.bool dq.Empty, dq) := rfl

theorem run_cons_ok [Inhabited T] {dq dq' : Deque T} {op : Op T} {r : Ret T}
    {ops : List (Op T)} {tr : List (Ret T × Deque T)}
    (h1 : dq.call op = .ok (r, dq')) (h2 : dq'.run ops = .ok tr) :
    dq.run (op :: ops) = .ok ((r, dq') :: tr) := by
  simp only [run, h1, h2]

theorem run_cons_fault [Inhabited T] {dq dq' : Deque T} {op : Op T} {r : Ret T}
    {ops : List (Op T)} {f : Fault}
    (h1 : dq.call op = .ok (r, dq')) (h2 : dq'.run ops = .error f) :
    dq.run (op :: ops) = .error f := by
  simp only [run, h1, h2]

theorem run_cons_fault_now [Inhabited T] {dq : Deque T} {op : Op T}
    {ops : List (Op T)} {f : Fault}
    (h1 : dq.call op = .error f) : dq.run (op :: ops) = .error f := by
  simp only [run, h1]

/-- One call refines the list model, as long as a `Push` finds fewer than `2 ^ 62`
live elements. -/
theorem WF.call_spec [Inhabited T] {dq : Deque T} (h : dq.WF) (op : Op T)
    (hfit : ∀ v, op = .push v → dq.live < 2 ^ 62) :
    ∃ dq', dq.call op = .ok ((ListModel.call dq.toList op).1, dq') ∧ dq'.WF ∧
      dq'.toList = (ListModel.call dq.toList op).2 := by
  cases op with
  | push v =>
    obtain ⟨dq', h1, h2, h3, _⟩ := h.push_spec (hfit v rfl) v
    exact ⟨dq', call_push_ok h1, h2, h3⟩
  | shift =>
    obtain ⟨dq', h1, h2, h3, _⟩ := h.shift_spec
    exact ⟨dq', call_shift_ok h1, h2, h3⟩
  | pop =>
    obtain ⟨dq', h1, h2, h3, _⟩ := h.pop_spec
    exact ⟨dq', call_pop_ok h1, h2, h3⟩
  | empty =>
    refine ⟨dq, ?_, h, rfl⟩
    rw [call_empty, h.empty_eq]
    rfl

theorem last_nil (dq : Deque T) : dq.last [] = dq := rfl

theorem last_cons (dq : Deque T) (p : Ret T × Deque T) (tr : List (Ret T × Deque T)) :
    dq.last (p :: tr) = p.2.last tr := by
  unfold last
  rw [List.map_cons, List.getLastD_cons]

/-- A run refines the list model when no `Push` meets `2 ^ 62` live elements. -/
theorem WF.run_spec [Inhabited T] (ops : List (Op T)) :
    ∀ {dq : Deque T}, dq.WF → ListModel.within maxLive dq.toList ops = true →
      ∃ tr, dq.run ops = .ok tr ∧ tr.map Prod.fst = ListModel.run dq.toList ops ∧
        (dq.last tr).WF ∧ (dq.last tr).toList = ListModel.final dq.toList ops := by
  induction ops with
  | nil => intro dq h _; exact ⟨[], rfl, rfl, h, rfl⟩
  | cons op ops ih =>
    intro dq h hfit
    have hlen := toList_length dq
    have hstep : ∃ dq', dq.call op = .ok ((ListModel.call dq.toList op).1, dq') ∧ dq'.WF ∧
        dq'.toList = (ListModel.call dq.toList op).2 := by
      apply h.call_spec
      intro v hv
      subst hv
      simp only [ListModel.within, Bool.and_eq_true, decide_eq_true_eq, maxLive] at hfit
      omega
    obtain ⟨dq', h1, h2, h3⟩ := hstep
    have hfit' : ListModel.within maxLive dq'.toList ops = true := by
      rw [h3]
      cases op <;> simp only [ListModel.within, Bool.and_eq_true] at hfit
      · exact hfit.2
      · exact hfit
      · exact hfit
      · exact hfit
    obtain ⟨tr, h4, h5, h6, h7⟩ := ih h2 hfit'
    refine ⟨_, run_cons_ok h1 h4, ?_, ?_, ?_⟩
    · simp only [List.map_cons, h5, ListModel.run, h3]
    · rw [last_cons]; exact h6
    · rw [last_cons, h7, h3]; rfl

/-- A `Push` that meets `2 ^ 62` live elements makes the run fault in `make`. -/
theorem WF.run_fault [Inhabited T] (ops : List (Op T)) :
    ∀ {dq : Deque T}, dq.WF → ListModel.within maxLive dq.toList ops = false →
      dq.run ops = .error .makeslice := by
  induction ops with
  | nil => intro dq _ hfit; simp [ListModel.within] at hfit
  | cons op ops ih =>
    intro dq h hfit
    have hlen := toList_length dq
    have hmax := h.live_le_max
    by_cases hop : ∀ v, op = .push v → dq.live < 2 ^ 62
    · obtain ⟨dq', h1, h2, h3⟩ := h.call_spec op hop
      have hfit' : ListModel.within maxLive dq'.toList ops = false := by
        rw [h3]
        cases op with
        | push v =>
          have := hop v rfl
          simp only [ListModel.within, Bool.and_eq_false_iff, decide_eq_false_iff_not,
            maxLive] at hfit
          rcases hfit with hf | hf
          · omega
          · exact hf
        | shift => exact hfit
        | pop => exact hfit
        | empty => exact hfit
      exact run_cons_fault h1 (ih h2 hfit')
    · push_neg at hop
      obtain ⟨v, rfl, hv⟩ := hop
      have htop : dq.live = 2 ^ 62 := by omega
      exact run_cons_fault_now (call_push_fault (h.push_full_fault htop v))

/-- Every call that returns keeps the representation invariant. -/
theorem WF.run_wf [Inhabited T] {dq : Deque T} (h : dq.WF) {ops : List (Op T)}
    {tr : List (Ret T × Deque T)} (hrun : dq.run ops = .ok tr) : (dq.last tr).WF := by
  cases hfit : ListModel.within maxLive dq.toList ops with
  | false => rw [h.run_fault ops hfit] at hrun; cases hrun
  | true =>
    obtain ⟨tr', h1, _, h3, _⟩ := h.run_spec ops hfit
    rw [h1] at hrun
    cases hrun
    exact h3

theorem Reachable.wf [Inhabited T] {dq : Deque T} (h : dq.Reachable) : dq.WF := by
  obtain ⟨ops, tr, h1, h2⟩ := h
  rw [← h2]
  exact fresh_wf.run_wf h1

end Deque

/-! ## Facts about the list model -/

namespace ListModel
variable {T : Type}

theorem run_append [Inhabited T] (o1 o2 : List (Op T)) :
    ∀ l : List T, run l (o1 ++ o2) = run l o1 ++ run (final l o1) o2 := by
  induction o1 with
  | nil => intro l; rfl
  | cons op o1 ih =>
    intro l
    rw [List.cons_append]
    simp only [run, final, ih, List.cons_append]

theorem final_append [Inhabited T] (o1 o2 : List (Op T)) :
    ∀ l : List T, final l (o1 ++ o2) = final (final l o1) o2 := by
  induction o1 with
  | nil => intro l; rfl
  | cons op o1 ih =>
    intro l
    rw [List.cons_append]
    simp only [final, ih]

theorem within_append [Inhabited T] (b : Nat) (o1 o2 : List (Op T)) :
    ∀ l : List T, within b l (o1 ++ o2) = (within b l o1 && within b (final l o1) o2) := by
  induction o1 with
  | nil => intro l; simp [within, final]
  | cons op o1 ih =>
    intro l
    rw [List.cons_append]
    cases op <;> simp only [within, final, call, ih, Bool.and_assoc]

theorem final_pushes [Inhabited T] (xs : List T) :
    ∀ l : List T, final l (xs.map Op.push) = l ++ xs := by
  induction xs with
  | nil => intro l; simp [final]
  | cons x xs ih => intro l; simp only [List.map_cons, final, call, ih, List.append_assoc,
      List.singleton_append]

theorem run_pushes [Inhabited T] (xs : List T) :
    ∀ l : List T, run l (xs.map Op.push) = xs.map (fun _ => Ret.unit) := by
  induction xs with
  | nil => intro l; rfl
  | cons x xs ih => intro l; simp only [List.map_cons, run, call, ih]

theorem within_pushes (b : Nat) (xs : List T) :
    ∀ l : List T, l.length ≤ b →
      within b l (xs.map Op.push) = decide (l.length + xs.length ≤ b) := by
  induction xs with
  | nil => intro l hl; simp [within, hl]
  | cons x xs ih =>
    intro l hl
    simp only [List.map_cons, within, List.length_cons]
    rcases Nat.lt_or_ge l.length b with h | h
    · have h1 : (l ++ [x]).length ≤ b := by simp; omega
      rw [ih _ h1]
      simp only [List.length_append, List.length_singleton, decide_eq_true h, Bool.true_and]
      congr 1
      apply propext
      constructor <;> intro <;> omega
    · have h1 : ¬ l.length < b := by omega
      have h2 : ¬ l.length + (xs.length + 1) ≤ b := by omega
      simp only [decide_eq_false h1, decide_eq_false h2, Bool.false_and]

/-- Removals never leave the bound. -/
theorem within_removals (b : Nat) (ops : List (Op T))
    (hrem : ∀ op ∈ ops, op = Op.shift ∨ op = Op.pop) :
    ∀ l : List T, within b l ops = true := by
  induction ops with
  | nil => intro l; rfl
  | cons op ops ih =>
    intro l
    have ih' := ih (fun o ho => hrem o (List.mem_cons_of_mem _ ho))
    rcases hrem op (List.mem_cons_self _ _) with rfl | rfl
    · exact ih' _
    · exact ih' _

theorem final_removals_length [Inhabited T] (ops : List (Op T))
    (hrem : ∀ op ∈ ops, op = Op.shift ∨ op = Op.pop) :
    ∀ l : List T, (final l ops).length = l.length - ops.length := by
  induction ops with
  | nil => intro l; rfl
  | cons op ops ih =>
    intro l
    have ih' := ih (fun o ho => hrem o (List.mem_cons_of_mem _ ho))
    rcases hrem op (List.mem_cons_self _ _) with rfl | rfl
    · simp only [final, call, ih', List.length_tail, List.length_cons]; omega
    · simp only [final, call, ih', List.length_dropLast, List.length_cons]; omega

theorem run_shifts [Inhabited T] (l : List T) :
    run l (List.replicate l.length Op.shift) = l.map Ret.val := by
  induction l with
  | nil => rfl
  | cons a l ih =>
    simp only [List.length_cons, List.replicate_succ, run, call, List.headD_cons,
      List.tail_cons, ih, List.map_cons]

theorem run_pops [Inhabited T] (l : List T) :
    run l (List.replicate l.length Op.pop) = l.reverse.map Ret.val := by
  induction l using List.reverseRecOn with
  | nil => rfl
  | append_singleton l a ih =>
    simp only [List.length_append, List.length_singleton, List.replicate_succ, run, call,
      List.getLastD_concat, List.dropLast_concat, ih, List.reverse_append,
      List.reverse_singleton, List.singleton_append, List.map_cons]

end ListModel

/-! ## The claims -/

namespace Deque
variable {T : Type}

theorem fits_pushes_then_removals [Inhabited T] (xs : List T) (rem : List (Op T))
    (hN : xs.length ≤ 2 ^ 62) (hrem : ∀ op ∈ rem, op = Op.shift ∨ op = Op.pop) :
    ListModel.within maxLive (fresh : Deque T).toList (xs.map Op.push ++ rem) = true := by
  rw [fresh_toList, ListModel.within_append, ListModel.within_pushes _ _ _ (Nat.zero_le _),
    ListModel.within_removals _ _ hrem]
  simp only [List.length_nil, Nat.zero_add, Bool.and_true, decide_eq_true_eq, maxLive]
  exact hN

theorem overfull_pushes_unfit (rem : List (Op Unit)) :
    ListModel.within maxLive (fresh : Deque Unit).toList
      ((List.replicate (2 ^ 62 + 1) ()).map Op.push ++ rem) = false := by
  rw [fresh_toList, ListModel.within_append, ListModel.within_pushes _ _ _ (Nat.zero_le _),
    List.length_replicate]
  have : decide (([] : List Unit).length + (2 ^ 62 + 1) ≤ maxLive) = false := by decide
  rw [this, Bool.false_and]

/-- C1 (amended): for every finite sequence of Push/Shift/Pop/Empty calls applied to
the zero-value deque in which no Push is made while `2 ^ 62` elements are live, every
call returns, and returns exactly what the same call returns on the list model that
starts empty. -/
theorem run_refines_list [Inhabited T] (ops : List (Op T))
    (hfit : ListModel.within (2 ^ 62) ([] : List T) ops = true) :
    ∃ tr, (fresh : Deque T).run ops = .ok tr ∧ tr.map Prod.fst = ListModel.run [] ops := by
  have hfit' : ListModel.within maxLive (fresh : Deque T).toList ops = true := by
    rw [fresh_toList]; exact hfit
  obtain ⟨tr, h1, h2, _⟩ := (fresh_wf (T := T)).run_spec ops hfit'
  rw [fresh_toList] at h2
  exact ⟨tr, h1, h2⟩

/-- C1, the witness of the specification: Push 1, 2, 3, 4, then Shift = 1, Pop = 4,
Shift = 2, Pop = 3, Empty = true. -/
theorem run_refines_list_witness :
    ListModel.within (2 ^ 62) ([] : List Nat)
        [.push 1, .push 2, .push 3, .push 4, .shift, .pop, .shift, .pop, .empty] = true ∧
      ∃ tr, (fresh : Deque Nat).run
          [.push 1, .push 2, .push 3, .push 4, .shift, .pop, .shift, .pop, .empty] = .ok tr ∧
        tr.map Prod.fst = [.unit, .unit, .unit, .unit, .val 1, .val 4, .val 2, .val 3,
          .bool true] :=
  ⟨by decide, run_refines_list _ (by decide)⟩

/-- C1 as stated fails: the last of `2 ^ 62 + 1` Push calls on a deque of zero-size
elements does not return, it faults in `make`; the list model accepts every Push. -/
theorem run_refines_list_unbounded_fails :
    (fresh : Deque Unit).run (List.replicate (2 ^ 62 + 1) (Op.push ())) = .error Fault.makeslice ∧
      ¬ ∃ tr, (fresh : Deque Unit).run (List.replicate (2 ^ 62 + 1) (Op.push ())) = .ok tr ∧
        tr.map Prod.fst = ListModel.run [] (List.replicate (2 ^ 62 + 1) (Op.push ())) := by
  have h : (fresh : Deque Unit).run (List.replicate (2 ^ 62 + 1) (Op.push ()))
      = .error Fault.makeslice := by
    have h1 := overfull_pushes_unfit []
    rw [List.append_nil, List.map_replicate] at h1
    exact fresh_wf.run_fault _ h1
  refine ⟨h, ?_⟩
  rintro ⟨tr, h1, _⟩
  rw [h] at h1
  cases h1

/-- C2 (amended): for every N ≤ `2 ^ 62` and every sequence x_1..x_N, starting from the
zero-value deque, Push(x_1)..Push(x_N) followed by N Shift calls all return, and the
Shift calls return x_1, x_2, ..., x_N in that order. -/
theorem fifo_order [Inhabited T] (xs : List T) (hN : xs.length ≤ 2 ^ 62) :
    ∃ tr, (fresh : Deque T).run (xs.map Op.push ++ List.replicate xs.length Op.shift) = .ok tr ∧
      (tr.drop xs.length).map Prod.fst = xs.map Ret.val := by
  have hrem : ∀ op ∈ List.replicate xs.length (Op.shift : Op T), op = Op.shift ∨ op = Op.pop :=
    fun op h => Or.inl (List.eq_of_mem_replicate h)
  obtain ⟨tr, h1, h2, _⟩ := (fresh_wf (T := T)).run_spec _ (fits_pushes_then_removals xs _ hN hrem)
  refine ⟨tr, h1, ?_⟩
  rw [List.map_drop, h2, fresh_toList, ListModel.run_append, ListModel.run_pushes,
    ListModel.final_pushes, List.nil_append, ListModel.run_shifts]
  exact List.drop_left' (by simp)

/-- C2 at three pushes. -/
theorem fifo_order_witness :
    [10, 20, 30].length ≤ 2 ^ 62 ∧
      ∃ tr, (fresh : Deque Nat).run ([10, 20, 30].map Op.push ++
          List.replicate [10, 20, 30].length Op.shift) = .ok tr ∧
        (tr.drop [10, 20, 30].length).map Prod.fst = [Ret.val 10, Ret.val 20, Ret.val 30] :=
  ⟨by decide, fifo_order [10, 20, 30] (by decide)⟩

/-- C2 as stated fails for N = `2 ^ 62 + 1`: the last Push faults, no Shift is reached. -/
theorem fifo_order_unbounded_fails :
    (fresh : Deque Unit).run ((List.replicate (2 ^ 62 + 1) ()).map Op.push ++
      List.replicate (2 ^ 62 + 1) Op.shift) = .error Fault.makeslice :=
  fresh_wf.run_fault _ (overfull_pushes_unfit _)

/-- C3 (amended): for every N ≤ `2 ^ 62` and every sequence x_1..x_N, starting from the
zero-value deque, Push(x_1)..Push(x_N) followed by N Pop calls all return, and the Pop
calls return x_N, ..., x_1 in that order. -/
theorem lifo_order [Inhabited T] (xs : List T) (hN : xs.length ≤ 2 ^ 62) :
    ∃ tr, (fresh : Deque T).run (xs.map Op.push ++ List.replicate xs.length Op.pop) = .ok tr ∧
      (tr.drop xs.length).map Prod.fst = xs.reverse.map Ret.val := by
  have hrem : ∀ op ∈ List.replicate xs.length (Op.pop : Op T), op = Op.shift ∨ op = Op.pop :=
    fun op h => Or.inr (List.eq_of_mem_replicate h)
  obtain ⟨tr, h1, h2, _⟩ := (fresh_wf (T := T)).run_spec _ (fits_pushes_then_removals xs _ hN hrem)
  refine ⟨tr, h1, ?_⟩
  rw [List.map_drop, h2, fresh_toList, ListModel.run_append, ListModel.run_pushes,
    ListModel.final_pushes, List.nil_append, ListModel.run_pops]
  exact List.drop_left' (by simp)

/-- C3 at three pushes. -/
theorem lifo_order_witness :
    [10, 20, 30].length ≤ 2 ^ 62 ∧
      ∃ tr, (fresh : Deque Nat).run ([10, 20, 30].map Op.push ++
          List.replicate [10, 20, 30].length Op.pop) = .ok tr ∧
        (tr.drop [10, 20, 30].length).map Prod.fst = [Ret.val 30, Ret.val 20, Ret.val 10] :=
  ⟨by decide, lifo_order [10, 20, 30] (by decide)⟩

/-- C3 as stated fails for N = `2 ^ 62 + 1`: the last Push faults, no Pop is reached. -/
theorem lifo_order_unbounded_fails :
    (fresh : Deque Unit).run ((List.replicate (2 ^ 62 + 1) ()).map Op.push ++
      List.replicate (2 ^ 62 + 1) Op.pop) = .error Fault.makeslice :=
  fresh_wf.run_fault _ (overfull_pushes_unfit _)

/-- C4 (amended): the zero-value deque is empty; in every reachable state Push(v)
returns whenever fewer than `2 ^ 62` elements are live, and whenever it returns
Empty() is false right after; and for N ≤ `2 ^ 62`, N pushes followed by k ≤ N
removals, each a Shift or a Pop in any mix, all return and leave Empty() true exactly
when k = N. -/
theorem emptiness [Inhabited T] :
    (fresh : Deque T).Empty = true ∧
    (∀ (dq : Deque T) (v : T), dq.Reachable →
      (dq.live < 2 ^ 62 → ∃ dq', dq.Push v = .ok dq') ∧
      (∀ dq', dq.Push v = .ok dq' → dq'.Empty = false)) ∧
    (∀ (xs : List T) (rem : List (Op T)), xs.length ≤ 2 ^ 62 →
      (∀ op ∈ rem, op = Op.shift ∨ op = Op.pop) → rem.length ≤ xs.length →
      ∃ tr, (fresh : Deque T).run (xs.map Op.push ++ rem) = .ok tr ∧
        ((fresh : Deque T).last tr).Empty = decide (rem.length = xs.length)) := by
  refine ⟨rfl, ?_, ?_⟩
  · intro dq v hr
    have h := hr.wf
    refine ⟨fun hlt => ?_, fun dq' hp => ?_⟩
    · obtain ⟨dq', h1, _⟩ := h.push_spec hlt v
      exact ⟨dq', h1⟩
    · rcases Nat.lt_or_ge dq.live (2 ^ 62) with hlt | hge
      · obtain ⟨dq1, h1, h2, _, h4, _⟩ := h.push_spec hlt v
        rw [h1] at hp
        cases hp
        rw [← Bool.not_eq_true, h2.empty_iff]
        omega
      · have htop : dq.live = 2 ^ 62 := Nat.le_antisymm h.live_le_max hge
        rw [h.push_full_fault htop v] at hp
        cases hp
  · intro xs rem hN hrem hle
    obtain ⟨tr, h1, _, h3, h4⟩ :=
      (fresh_wf (T := T)).run_spec _ (fits_pushes_then_removals xs rem hN hrem)
    refine ⟨tr, h1, ?_⟩
    have hlen : ((fresh : Deque T).last tr).toList.length = xs.length - rem.length := by
      rw [h4, fresh_toList, ListModel.final_append, ListModel.final_pushes, List.nil_append,
        ListModel.final_removals_length rem hrem]
    rw [toList_length] at hlen
    by_cases he : rem.length = xs.length
    · rw [decide_eq_true he, h3.empty_iff]; omega
    · rw [decide_eq_false he, ← Bool.not_eq_true, h3.empty_iff]; omega

/-- C4 on the zero-value deque, a Push of 5, and three pushes removed by Shift, Pop,
Shift. -/
theorem emptiness_witness :
    (fresh : Deque Nat).Empty = true ∧
    (fresh : Deque Nat).live < 2 ^ 62 ∧
    (∃ dq', (fresh : Deque Nat).Push 5 = .ok dq' ∧ dq'.Empty = false) ∧
    [1, 2, 3].length ≤ 2 ^ 62 ∧
    (∃ tr, (fresh : Deque Nat).run ([1, 2, 3].map Op.push ++ [.shift, .pop, .shift]) = .ok tr ∧
      ((fresh : Deque Nat).last tr).Empty = true) := by
  have hb := (emptiness (T := Nat)).2.1 fresh 5 ⟨[], [], rfl, rfl⟩
  refine ⟨(emptiness (T := Nat)).1, by decide, ?_, by decide, ?_⟩
  · obtain ⟨dq', h⟩ := hb.1 (by decide)
    exact ⟨dq', h, hb.2 dq' h⟩
  · exact (emptiness (T := Nat)).2.2 [1, 2, 3] [.shift, .pop, .shift] (by decide)
      (by decide) (by decide)

/-- C4 as stated fails for N = `2 ^ 62 + 1`: the pushes do not all return, so no
sequence of removals brings the deque back to empty. -/
theorem emptiness_unbounded_fails :
    ¬ ∃ tr, (fresh : Deque Unit).run ((List.replicate (2 ^ 62 + 1) ()).map Op.push ++
        (List.replicate (2 ^ 62) Op.shift ++ [Op.pop])) = .ok tr ∧
      ((fresh : Deque Unit).last tr).Empty = true := by
  rintro ⟨tr, h1, _⟩
  rw [fresh_wf.run_fault _ (overfull_pushes_unfit _)] at h1
  cases h1

/-- C5: in every state with read == write, Shift and Pop each return the zero value
and leave the deque, every field of it, exactly as it was (so it is still empty and a
repeated call gives the same result). -/
theorem underflow_noop [Inhabited T] (dq : Deque T) (h : dq.read = dq.write) :
    dq.Empty = true ∧ dq.Shift = .ok (default, dq) ∧ dq.Pop = .ok (default, dq) := by
  have hE : dq.Empty = true := by simp [Empty, h]
  refine ⟨hE, ?_, ?_⟩
  · simp only [Shift, hE, if_true]
  · simp only [Pop, hE, if_true]

/-- C5 on a state whose store still holds stale values. -/
theorem underflow_noop_witness :
    (⟨[4, 0, 9, 0, 0, 0, 0, 0], 11, 11, 7⟩ : Deque Nat).read
        = (⟨[4, 0, 9, 0, 0, 0, 0, 0], 11, 11, 7⟩ : Deque Nat).write ∧
      (⟨[4, 0, 9, 0, 0, 0, 0, 0], 11, 11, 7⟩ : Deque Nat).Empty = true ∧
      (⟨[4, 0, 9, 0, 0, 0, 0, 0], 11, 11, 7⟩ : Deque Nat).Shift
        = .ok (0, ⟨[4, 0, 9, 0, 0, 0, 0, 0], 11, 11, 7⟩) ∧
      (⟨[4, 0, 9, 0, 0, 0, 0, 0], 11, 11, 7⟩ : Deque Nat).Pop
        = .ok (0, ⟨[4, 0, 9, 0, 0, 0, 0, 0], 11, 11, 7⟩) :=
  ⟨rfl, underflow_noop _ rfl⟩

theorem WF.toList_getElem? [Inhabited T] {dq : Deque T} (h : dq.WF) {i : Nat}
    (hi : i < dq.live) : dq.toList[i]? = dq.elems[dq.slot i]? := by
  have hl := h.live_le
  have hs := h.slot_lt (by omega) i
  have hlen := toList_length dq
  rw [List.getElem?_eq_getElem (by omega), List.getElem?_eq_getElem hs]
  simp only [toList, List.getElem_map, List.getElem_range, List.getD_eq_getElem?_getD,
    List.getElem?_eq_getElem hs, Option.getD_some]

/-- C6 (amended): for every full deque state whose capacity is zero (with mask zero)
or a power of two below `2 ^ 62`, with mask = capacity − 1, write − read = capacity
and the read cursor at any offset, Push(v) returns a state with read = 0,
write = old length + 1, mask = new capacity − 1, slots 0..old length − 1 holding the
old live elements in logical order (old slot (read + i) & mask at new index i) and
slot old length holding v; the logical content is the old one followed by v, the very
content an in-place Push of v gives to any deque with the same content and room. -/
theorem growth_keeps_order [Inhabited T] (dq : Deque T) (v : T)
    (hr : dq.read < 2 ^ 64) (hw : dq.write < 2 ^ 64)
    (hshape : (dq.elems.length = 0 ∧ dq.mask = 0) ∨
      ∃ k, k < 62 ∧ dq.elems.length = 2 ^ k ∧ dq.mask = 2 ^ k - 1)
    (hfull : dq.live = dq.elems.length) :
    ∃ dq', dq.Push v = .ok dq' ∧ dq'.read = 0 ∧ dq'.write = dq.elems.length + 1 ∧
      dq'.mask = dq'.elems.length - 1 ∧
      (∀ i, i < dq.elems.length → dq'.elems[i]? = dq.elems[dq.slot i]?) ∧
      dq'.elems[dq.elems.length]? = some v ∧
      dq'.toList = dq.toList ++ [v] ∧
      (∀ d : Deque T, d.WF → d.live < d.elems.length → d.toList = dq.toList →
        (d.pushedInPlace v).toList = dq'.toList) := by
  have h : dq.WF := by
    refine ⟨hr, hw, ?_, Nat.le_of_eq hfull⟩
    rcases hshape with h0 | ⟨k, hk, h1, h2⟩
    · exact Or.inl h0
    · exact Or.inr ⟨k, by omega, h1, h2⟩
  have hlt : dq.live < 2 ^ 62 := by
    rcases hshape with ⟨h0, _⟩ | ⟨k, hk, h1, _⟩
    · omega
    · have : 2 ^ k < 2 ^ 62 := Nat.pow_lt_pow_right (by decide) hk
      omega
  obtain ⟨hwf, hlive, hlen⟩ := h.grown_wf hfull hlt v
  have htl := toList_length dq
  have hel : (dq.grown v).elems = dq.toList ++ v :: List.replicate
      (max 8 (2 * dq.elems.length) - dq.live - 1) default := rfl
  refine ⟨dq.grown v, h.push_grow hfull hlt v, rfl, ?_, ?_, ?_, ?_, h.grown_toList hfull hlt v, ?_⟩
  · rw [← hfull]; rfl
  · rw [hlen]; rfl
  · intro i hi
    rw [hel, List.getElem?_append_left (by omega), h.toList_getElem? (by omega)]
  · rw [hel, List.getElem?_append_right (by omega), htl, hfull, Nat.sub_self]
    exact List.getElem?_cons_zero
  · intro d hd hroom heq
    rw [hd.pushedInPlace_toList hroom v, h.grown_toList hfull hlt v, heq]

/-- C6 on a full store of eight whose live range is wrapped: read = 13, write = 21. -/
theorem growth_keeps_order_witness :
    (13 < 2 ^ 64 ∧ 21 < 2 ^ 64) ∧
    (⟨[3, 4, 5, 6, 7, 0, 1, 2], 13, 21, 7⟩ : Deque Nat).live = 8 ∧
    ∃ dq', (⟨[3, 4, 5, 6, 7, 0, 1, 2], 13, 21, 7⟩ : Deque Nat).Push 8 = .ok dq' ∧
      dq'.read = 0 ∧ dq'.write = 9 ∧ dq'.mask = dq'.elems.length - 1 ∧
      dq'.toList = [0, 1, 2, 3, 4, 5, 6, 7, 8] := by
  refine ⟨by decide, by decide, ?_⟩
  obtain ⟨dq', h1, h2, h3, h4, -, -, h7, -⟩ :=
    growth_keeps_order (⟨[3, 4, 5, 6, 7, 0, 1, 2], 13, 21, 7⟩ : Deque Nat) 8
      (by decide) (by decide) (Or.inr ⟨3, by decide, by decide, by decide⟩) (by decide)
  exact ⟨dq', h1, h2, h3, h4, h7⟩

/-- C6 as stated fails at capacity `2 ^ 62`, a power of two: the store is full, its
mask is capacity − 1, and Push faults in `make` where the claim promises a grown
state. -/
theorem growth_fails_at_top_capacity :
    (⟨List.replicate (2 ^ 62) (), 0, 2 ^ 62, 2 ^ 62 - 1⟩ : Deque Unit).elems.length = 2 ^ 62 ∧
    (⟨List.replicate (2 ^ 62) (), 0, 2 ^ 62, 2 ^ 62 - 1⟩ : Deque Unit).live = 2 ^ 62 ∧
    (⟨List.replicate (2 ^ 62) (), 0, 2 ^ 62, 2 ^ 62 - 1⟩ : Deque Unit).Push ()
      = .error Fault.makeslice := by
  have hlen : (⟨List.replicate (2 ^ 62) (), 0, 2 ^ 62, 2 ^ 62 - 1⟩ : Deque Unit).elems.length
      = 2 ^ 62 := List.length_replicate _ _
  have hlive : (⟨List.replicate (2 ^ 62) (), 0, 2 ^ 62, 2 ^ 62 - 1⟩ : Deque Unit).live
      = 2 ^ 62 := by decide
  have h : (⟨List.replicate (2 ^ 62) (), 0, 2 ^ 62, 2 ^ 62 - 1⟩ : Deque Unit).WF :=
    ⟨by decide, by decide, Or.inr ⟨62, Nat.le_refl _, hlen, rfl⟩, by rw [hlive, hlen]⟩
  exact ⟨hlen, hlive, h.push_full_fault hlive ()⟩

theorem run_append_ok [Inhabited T] (o1 o2 : List (Op T)) :
    ∀ {dq : Deque T} {tr1 tr2 : List (Ret T × Deque T)}, dq.run o1 = .ok tr1 →
      (dq.last tr1).run o2 = .ok tr2 → dq.run (o1 ++ o2) = .ok (tr1 ++ tr2) := by
  induction o1 with
  | nil =>
    intro dq tr1 tr2 h1 h2
    simp only [run, Except.ok.injEq] at h1
    subst h1
    exact h2
  | cons op o1 ih =>
    intro dq tr1 tr2 h1 h2
    cases hc : dq.call op with
    | error f => simp only [run, hc] at h1; cases h1
    | ok p =>
      obtain ⟨r, dq'⟩ := p
      cases hr : dq'.run o1 with
      | error f => simp only [run, hc, hr] at h1; cases h1
      | ok tr =>
        simp only [run, hc, hr, Except.ok.injEq] at h1
        subst h1
        rw [last_cons] at h2
        rw [List.cons_append]
        exact run_cons_ok hc (ih hr h2)

theorem vals_append (tr1 tr2 : List (Ret T × Deque T)) :
    vals (tr1 ++ tr2) = vals tr1 ++ vals tr2 := by
  induction tr1 with
  | nil => rfl
  | cons p tr1 ih =>
    obtain ⟨r, d⟩ := p
    cases r <;> simp [vals, ih]

theorem last_append (tr1 : List (Ret T × Deque T)) :
    ∀ (dq : Deque T) (tr2 : List (Ret T × Deque T)),
      dq.last (tr1 ++ tr2) = (dq.last tr1).last tr2 := by
  induction tr1 with
  | nil => intro dq tr2; rfl
  | cons p tr1 ih =>
    intro dq tr2
    rw [List.cons_append, last_cons, last_cons, ih]

/-- One Push on at most seven live elements, in a store of eight or on the zero-value
deque: the store has length 8 afterwards, the read cursor stays and the write cursor
moves up by one. -/
theorem WF.push_small [Inhabited T] {dq : Deque T} (h : dq.WF) (hl : dq.live ≤ 7)
    (hc : dq.elems.length = 8 ∨ (dq.elems.length = 0 ∧ dq.read = 0 ∧ dq.write = 0))
    (x : T) :
    ∃ dq1, dq.Push x = .ok dq1 ∧ dq1.WF ∧ dq1.elems.length = 8 ∧
      dq1.toList = dq.toList ++ [x] ∧ dq1.live = dq.live + 1 ∧
      dq1.read = dq.read ∧ dq1.write = (dq.write + 1) % 2 ^ 64 := by
  rcases hc with h8 | ⟨h0, hr, hw⟩
  · have hroom : dq.live < dq.elems.length := by omega
    obtain ⟨hwf, hlive⟩ := h.pushedInPlace_wf hroom x
    refine ⟨_, h.push_in_place hroom x, hwf, ?_, h.pushedInPlace_toList hroom x, hlive,
      rfl, rfl⟩
    simp only [pushedInPlace, List.length_set]
    exact h8
  · have hle := h.live_le
    have hfull : dq.live = dq.elems.length := by omega
    have hlt : dq.live < 2 ^ 62 := by omega
    obtain ⟨hwf, hlive, hlen⟩ := h.grown_wf hfull hlt x
    refine ⟨_, h.push_grow hfull hlt x, hwf, ?_, h.grown_toList hfull hlt x, hlive, ?_, ?_⟩
    · rw [hlen, h0]; rfl
    · show 0 = dq.read
      omega
    · show dq.live + 1 = (dq.write + 1) % 2 ^ 64
      omega

/-- Pushes that leave room in a store of eight are stored in place: the store stays
at eight, the read cursor stays, the write cursor moves up by one each time. -/
theorem WF.run_pushes_small [Inhabited T] (ys : List T) :
    ∀ {dq : Deque T}, dq.WF → dq.live + ys.length ≤ 7 →
      (dq.elems.length = 8 ∨ (dq.elems.length = 0 ∧ dq.read = 0 ∧ dq.write = 0)) →
      ∃ tr, dq.run (ys.map Op.push) = .ok tr ∧ vals tr = [] ∧
        (∀ p ∈ tr, p.2.elems.length = 8) ∧ (dq.last tr).WF ∧
        (dq.last tr).toList = dq.toList ++ ys ∧
        (dq.last tr).live = dq.live + ys.length ∧
        ((dq.last tr).elems.length = 8 ∨ ((dq.last tr).elems.length = 0 ∧
          (dq.last tr).read = 0 ∧ (dq.last tr).write = 0)) ∧
        (dq.last tr).read = dq.read ∧
        (dq.last tr).write = (dq.write + ys.length) % 2 ^ 64 := by
  induction ys with
  | nil =>
    intro dq h hl hc
    have hw := h.write_lt
    refine ⟨[], rfl, rfl, by simp, h, by simp [last_nil], rfl, hc, rfl, ?_⟩
    rw [last_nil, List.length_nil]
    omega
  | cons y ys ih =>
    intro dq h hl hc
    simp only [List.length_cons] at hl
    obtain ⟨dq1, h1, h2, h3, h4, h5, h6, h7⟩ := h.push_small (by omega) hc y
    obtain ⟨tr, t1, t2, t3, t4, t5, t6, t7, t8, t9⟩ := ih h2 (by omega) (Or.inl h3)
    have hcall : dq.call (Op.push y) = .ok (Ret.unit, dq1) := call_push_ok h1
    refine ⟨(Ret.unit, dq1) :: tr, run_cons_ok hcall t1, ?_, ?_, ?_, ?_, ?_, ?_, ?_, ?_⟩
    · simp only [vals, t2]
    · intro p hp
      rcases List.mem_cons.mp hp with rfl | hp
      · exact h3
      · exact t3 p hp
    · rw [last_cons]; exact t4
    · rw [last_cons, t5, h4, List.append_assoc]; rfl
    · rw [last_cons, t6, h5, List.length_cons]; omega
    · rw [last_cons]; exact t7
    · rw [last_cons, t8, h6]
    · rw [last_cons, t9, h7, List.length_cons]; omega

/-- Alternating Push and Shift on at most seven live elements never grows the store
of eight; the shifts hand the elements out in order, every Push is stored in place,
and every pair moves both cursors up by one, modulo `2 ^ 64`. -/
theorem WF.run_pushShift [Inhabited T] (xs : List T) :
    ∀ {dq : Deque T}, dq.WF → dq.live ≤ 7 →
      (dq.elems.length = 8 ∨ (dq.elems.length = 0 ∧ dq.read = 0 ∧ dq.write = 0)) →
      ∃ tr, dq.run (pushShift xs) = .ok tr ∧
        vals tr = (dq.toList ++ xs).take xs.length ∧
        (∀ p ∈ tr, p.2.elems.length = 8) ∧ (dq.last tr).WF ∧
        (dq.last tr).toList = (dq.toList ++ xs).drop xs.length ∧
        (0 < (dq.last tr).live → (dq.last tr).elems.length = 8) ∧
        (dq.last tr).read = (dq.read + xs.length) % 2 ^ 64 ∧
        (dq.last tr).write = (dq.write + xs.length) % 2 ^ 64 := by
  induction xs with
  | nil =>
    intro dq h hl hc
    have hr := h.read_lt
    have hw := h.write_lt
    have hle := h.live_le
    refine ⟨[], rfl, by simp [vals], by simp, h, by simp [last_nil], ?_, ?_, ?_⟩
    · rw [last_nil]; intro hpos; omega
    · rw [last_nil, List.length_nil]; omega
    · rw [last_nil, List.length_nil]; omega
  | cons x xs ih =>
    intro dq h hl hc
    obtain ⟨dq1, h1, h2, h3, h4, h5, h6, h7⟩ := h.push_small hl hc x
    have hne1 : dq1.live ≠ 0 := by omega
    obtain ⟨hwf2, hl2⟩ := h2.shifted_wf hne1
    have h82 : dq1.shifted.elems.length = 8 := by
      simp only [shifted, List.length_set]
      exact h3
    have hsh : dq1.Shift = .ok (dq1.toList.headD default, dq1.shifted) := by
      rw [toList_head dq1 hne1]; exact h2.shift_nonempty hne1
    have hr2 : dq1.shifted.read = (dq1.read + 1) % 2 ^ 64 := rfl
    have hw2 : dq1.shifted.write = dq1.write := rfl
    obtain ⟨tr, t1, t2, t3, t4, t5, t6, t7, t8⟩ := ih hwf2 (by omega) (Or.inl h82)
    have hcall1 : dq.call (Op.push x) = .ok (Ret.unit, dq1) := call_push_ok h1
    have hcall2 : dq1.call Op.shift = .ok (Ret.val (dq1.toList.headD default), dq1.shifted) :=
      call_shift_ok hsh
    refine ⟨(Ret.unit, dq1) :: (Ret.val (dq1.toList.headD default), dq1.shifted) :: tr,
      run_cons_ok hcall1 (run_cons_ok hcall2 t1), ?_, ?_, ?_, ?_, ?_, ?_, ?_⟩
    · simp only [vals, t2, h2.shifted_toList hne1, h4, List.length_cons]
      cases hl' : dq.toList with
      | nil => simp
      | cons a l => simp
    · intro p hp
      rcases List.mem_cons.mp hp with rfl | hp
      · exact h3
      · rcases List.mem_cons.mp hp with rfl | hp
        · exact h82
        · exact t3 p hp
    · rw [last_cons, last_cons]; exact t4
    · rw [last_cons, last_cons, t5, h2.shifted_toList hne1, h4, List.length_cons]
      cases hl' : dq.toList with
      | nil => simp
      | cons a l => simp
    · rw [last_cons, last_cons]; exact t6
    · rw [last_cons, last_cons, t7, hr2, h6, List.length_cons]; omega
    · rw [last_cons, last_cons, t8, hw2, h7, List.length_cons]; omega

/-- C7: for every j ≤ 7, every y_1..y_j and every x_1..x_m, on the zero-value deque
the pushes of y_1..y_j followed by Push(x_i), Shift() for i = 1..m all return, the
i-th Shift returns the i-th element of y_1..y_j, x_1..x_m, and after every call the
backing store has length 8. No Push reallocates after the first: the run ends with
read = m and write = j + m (modulo `2 ^ 64`), so both cursors move past 8 as m grows,
and the j elements still queued, elements m + 1 .. m + j of y_1..y_j, x_1..x_m, sit in
the physical slots (m + i) mod 8 of the store, where the pushes put them. -/
theorem wraparound_without_growth [Inhabited T] (ys xs : List T) (hj : ys.length ≤ 7) :
    ∃ tr, (fresh : Deque T).run (ys.map Op.push ++ pushShift xs) = .ok tr ∧
      vals tr = (ys ++ xs).take xs.length ∧ (∀ p ∈ tr, p.2.elems.length = 8) ∧
      ((fresh : Deque T).last tr).read = xs.length % 2 ^ 64 ∧
      ((fresh : Deque T).last tr).write = (ys.length + xs.length) % 2 ^ 64 ∧
      ((fresh : Deque T).last tr).toList = (ys ++ xs).drop xs.length ∧
      ∀ i, i < ys.length →
        ((fresh : Deque T).last tr).elems[(xs.length + i) % 8]? = (ys ++ xs)[xs.length + i]? := by
  have hfr : (fresh : Deque T).read = 0 := rfl
  have hfw : (fresh : Deque T).write = 0 := rfl
  obtain ⟨tr1, a1, a2, a3, a4, a5, a6, a7, a8, a9⟩ :=
    (fresh_wf (T := T)).run_pushes_small ys (by rw [fresh_live]; omega)
      (Or.inr ⟨rfl, rfl, rfl⟩)
  rw [fresh_live] at a6
  rw [fresh_toList, List.nil_append] at a5
  obtain ⟨tr2, b1, b2, b3, b4, b5, b6, b7, b8⟩ := a4.run_pushShift xs (by omega) a7
  rw [← last_append] at b4 b5 b6 b7 b8
  rw [a5] at b2 b5
  rw [a8, hfr] at b7
  rw [a9, hfw] at b8
  have hlen := toList_length ((fresh : Deque T).last (tr1 ++ tr2))
  rw [b5, List.length_drop, List.length_append] at hlen
  refine ⟨tr1 ++ tr2, run_append_ok _ _ a1 b1, ?_, ?_, ?_, ?_, b5, ?_⟩
  · rw [vals_append, a2, b2]; rfl
  · intro p hp
    rcases List.mem_append.mp hp with hp | hp
    · exact a3 p hp
    · exact b3 p hp
  · rw [b7]; omega
  · rw [b8]; omega
  · intro i hi
    have hi' : i < ((fresh : Deque T).last (tr1 ++ tr2)).live := by omega
    have h8 := b6 (by omega)
    have hs : ((fresh : Deque T).last (tr1 ++ tr2)).slot i = (xs.length + i) % 8 := by
      rw [b4.slot_eq (by omega), h8, b7]; omega
    rw [← hs, ← b4.toList_getElem? hi', b5, List.getElem?_drop]

/-- C7 with j = 7 and twenty alternations: the store stays at eight slots while the
read cursor ends at 20 and the write cursor at 27, and the seven queued elements
13..19 sit in the slots 4, 5, 6, 7, 0, 1, 2. -/
theorem wraparound_without_growth_witness :
    [1, 2, 3, 4, 5, 6, 7].length ≤ 7 ∧
    ∃ tr, (fresh : Deque Nat).run ([1, 2, 3, 4, 5, 6, 7].map Op.push ++
        pushShift (List.range 20)) = .ok tr ∧
      vals tr = [1, 2, 3, 4, 5, 6, 7, 0, 1, 2, 3, 4, 5, 6, 7, 8, 9, 10, 11, 12] ∧
      (∀ p ∈ tr, p.2.elems.length = 8) ∧
      ((fresh : Deque Nat).last tr).read = 20 ∧
      ((fresh : Deque Nat).last tr).write = 27 ∧
      ((fresh : Deque Nat).last tr).toList = [13, 14, 15, 16, 17, 18, 19] ∧
      ∀ i, i < 7 → ((fresh : Deque Nat).last tr).elems[(20 + i) % 8]?
        = ([1, 2, 3, 4, 5, 6, 7] ++ List.range 20)[20 + i]? :=
  ⟨by decide, wraparound_without_growth [1, 2, 3, 4, 5, 6, 7] (List.range 20) (by decide)⟩

/-- C8: in every reachable non-empty state, Shift returns the element of physical slot
read & mask and leaves the zero value there, Pop returns the element of physical slot
(write − 1) & mask and leaves the zero value there; the store keeps its length and
every other physical slot keeps its value. -/
theorem removal_clears_slot [Inhabited T] (dq : Deque T) (hr : dq.Reachable)
    (hne : dq.Empty = false) :
    (∃ t dq', dq.Shift = .ok (t, dq') ∧ dq.elems[dq.read &&& dq.mask]? = some t ∧
      dq'.elems.length = dq.elems.length ∧
      dq'.elems[dq.read &&& dq.mask]? = some default ∧
      ∀ p, p ≠ (dq.read &&& dq.mask) → dq'.elems[p]? = dq.elems[p]?) ∧
    (∃ t dq', dq.Pop = .ok (t, dq') ∧ dq.elems[subU64 dq.write 1 &&& dq.mask]? = some t ∧
      dq'.elems.length = dq.elems.length ∧
      dq'.elems[subU64 dq.write 1 &&& dq.mask]? = some default ∧
      ∀ p, p ≠ (subU64 dq.write 1 &&& dq.mask) → dq'.elems[p]? = dq.elems[p]?) := by
  have h := hr.wf
  have hlive : dq.live ≠ 0 := by
    intro h0
    rw [h.empty_iff.mpr h0] at hne
    cases hne
  have hle := h.live_le
  have hpos : 0 < dq.elems.length := by omega
  have hm := (h.ring hpos).2
  have hs1 : (dq.read &&& dq.mask) < dq.elems.length := by
    rw [hm]; exact Nat.mod_lt _ hpos
  have hs2 : (subU64 dq.write 1 &&& dq.mask) < dq.elems.length := by
    rw [hm]; exact Nat.mod_lt _ hpos
  obtain ⟨t1, ht1⟩ : ∃ t, dq.elems[dq.read &&& dq.mask]? = some t :=
    ⟨_, List.getElem?_eq_getElem hs1⟩
  obtain ⟨t2, ht2⟩ : ∃ t, dq.elems[subU64 dq.write 1 &&& dq.mask]? = some t :=
    ⟨_, List.getElem?_eq_getElem hs2⟩
  constructor
  · refine ⟨t1, dq.shifted, ?_, ht1, List.length_set _ _ _, ?_, ?_⟩
    · simp only [Shift, hne, Bool.false_eq_true, if_false, ht1]
      rfl
    · simp only [shifted, List.getElem?_set_self hs1]
    · intro p hp
      simp only [shifted, List.getElem?_set_ne (Ne.symm hp)]
  · refine ⟨t2, dq.popped, ?_, ht2, List.length_set _ _ _, ?_, ?_⟩
    · simp only [Pop, hne, Bool.false_eq_true, if_false, ht2]
      rfl
    · simp only [popped, List.getElem?_set_self hs2]
    · intro p hp
      simp only [popped, List.getElem?_set_ne (Ne.symm hp)]

/-- C8 after Push 1, 2, 3: Shift clears slot 0, Pop clears slot 2. -/
theorem removal_clears_slot_witness :
    (⟨[1, 2, 3, 0, 0, 0, 0, 0], 0, 3, 7⟩ : Deque Nat).Reachable ∧
    (⟨[1, 2, 3, 0, 0, 0, 0, 0], 0, 3, 7⟩ : Deque Nat).Empty = false ∧
    (∃ t dq', (⟨[1, 2, 3, 0, 0, 0, 0, 0], 0, 3, 7⟩ : Deque Nat).Shift = .ok (t, dq') ∧
      dq'.elems[0]? = some 0) ∧
    (∃ t dq', (⟨[1, 2, 3, 0, 0, 0, 0, 0], 0, 3, 7⟩ : Deque Nat).Pop = .ok (t, dq') ∧
      dq'.elems[2]? = some 0) := by
  have hr : (⟨[1, 2, 3, 0, 0, 0, 0, 0], 0, 3, 7⟩ : Deque Nat).Reachable :=
    ⟨[.push 1, .push 2, .push 3], _, rfl, rfl⟩
  obtain ⟨⟨t, dq', h1, -, -, h4, -⟩, ⟨t2, dq2, g1, -, -, g4, -⟩⟩ :=
    removal_clears_slot _ hr (by decide)
  exact ⟨hr, by decide, ⟨t, dq', h1, h4⟩, ⟨t2, dq2, g1, g4⟩⟩

/-- C9: in every reachable state the backing store has length 0 with mask 0, or a
power-of-two length with mask = length − 1; so for a store of positive length,
c & mask = c mod length for every cursor c. -/
theorem power_of_two_capacity (dq : Deque T) [Inhabited T] (hr : dq.Reachable) :
    ((dq.elems.length = 0 ∧ dq.mask = 0) ∨
      ∃ k, dq.elems.length = 2 ^ k ∧ dq.mask = dq.elems.length - 1) ∧
    (0 < dq.elems.length → ∀ c, c &&& dq.mask = c % dq.elems.length) := by
  have h := hr.wf
  refine ⟨?_, fun hpos => (h.ring hpos).2⟩
  rcases h.shape with h0 | ⟨k, _, h1, h2⟩
  · exact Or.inl h0
  · exact Or.inr ⟨k, h1, by rw [h1, h2]⟩

/-- C9 after Push 1, 2, 3: length 8 = 2 ^ 3, mask 7, and 13 & 7 = 13 mod 8. -/
theorem power_of_two_capacity_witness :
    (⟨[1, 2, 3, 0, 0, 0, 0, 0], 0, 3, 7⟩ : Deque Nat).Reachable ∧
    (⟨[1, 2, 3, 0, 0, 0, 0, 0], 0, 3, 7⟩ : Deque Nat).elems.length = 2 ^ 3 ∧
    13 &&& (⟨[1, 2, 3, 0, 0, 0, 0, 0], 0, 3, 7⟩ : Deque Nat).mask
      = 13 % (⟨[1, 2, 3, 0, 0, 0, 0, 0], 0, 3, 7⟩ : Deque Nat).elems.length := by
  have hr : (⟨[1, 2, 3, 0, 0, 0, 0, 0], 0, 3, 7⟩ : Deque Nat).Reachable :=
    ⟨[.push 1, .push 2, .push 3], _, rfl, rfl⟩
  exact ⟨hr, by decide, (power_of_two_capacity _ hr).2 (by decide) 13⟩

theorem tally_cons_fault_now [Inhabited T] {dq : Deque T} {op : Op T}
    {ops : List (Op T)} {f : Fault}
    (h1 : dq.call op = .error f) : dq.tally (op :: ops) = .error f := by
  simp only [tally, h1]

/-- The counts of `tally` account for the live elements, and `tally` follows `run`. -/
theorem WF.tally_spec [Inhabited T] (ops : List (Op T)) :
    ∀ {dq : Deque T} {p r : Nat} {d : Deque T}, dq.WF → dq.tally ops = .ok (p, r, d) →
      d.WF ∧ d.live + r = dq.live + p ∧ ∃ tr, dq.run ops = .ok tr ∧ dq.last tr = d := by
  induction ops with
  | nil =>
    intro dq p r d h ht
    simp only [tally, Except.ok.injEq, Prod.mk.injEq] at ht
    obtain ⟨rfl, rfl, rfl⟩ := ht
    exact ⟨h, rfl, [], rfl, rfl⟩
  | cons op ops ih =>
    intro dq p r d h ht
    have hmax := h.live_le_max
    by_cases hop : ∀ v, op = .push v → dq.live < 2 ^ 62
    · obtain ⟨dq1, h1, h2, -⟩ := h.call_spec op hop
      simp only [tally, h1] at ht
      cases ht1 : dq1.tally ops with
      | error f => rw [ht1] at ht; cases ht
      | ok q =>
        obtain ⟨p1, r1, d1⟩ := q
        rw [ht1] at ht
        obtain ⟨i1, i2, tr, i3, i4⟩ := ih h2 ht1
        have hrun : ∃ tr', dq.run (op :: ops) = .ok tr' ∧ dq.last tr' = d1 :=
          ⟨_, run_cons_ok h1 i3, by rw [last_cons]; exact i4⟩
        cases op with
        | push v =>
          simp only [Except.ok.injEq, Prod.mk.injEq] at ht
          obtain ⟨rfl, rfl, rfl⟩ := ht
          obtain ⟨dq2, g1, -, -, g4, -⟩ := h.push_spec (hop v rfl) v
          rw [call_push_ok g1] at h1
          simp only [Except.ok.injEq, Prod.mk.injEq] at h1
          obtain ⟨-, rfl⟩ := h1
          exact ⟨i1, by omega, hrun⟩
        | shift =>
          obtain ⟨dq2, g1, -, -, g4, -⟩ := h.shift_spec
          rw [call_shift_ok g1] at h1
          simp only [Except.ok.injEq, Prod.mk.injEq] at h1
          obtain ⟨-, rfl⟩ := h1
          have he := h.empty_iff
          by_cases hE : dq.Empty = true
          · simp only [hE, if_true, Except.ok.injEq, Prod.mk.injEq] at ht
            obtain ⟨rfl, rfl, rfl⟩ := ht
            have := he.mp hE
            exact ⟨i1, by omega, hrun⟩
          · simp only [hE, if_false, Bool.false_eq_true, Except.ok.injEq, Prod.mk.injEq] at ht
            obtain ⟨rfl, rfl, rfl⟩ := ht
            have : dq.live ≠ 0 := fun h0 => hE (he.mpr h0)
            exact ⟨i1, by omega, hrun⟩
        | pop =>
          obtain ⟨dq2, g1, -, -, g4, -⟩ := h.pop_spec
          rw [call_pop_ok g1] at h1
          simp only [Except.ok.injEq, Prod.mk.injEq] at h1
          obtain ⟨-, rfl⟩ := h1
          have he := h.empty_iff
          by_cases hE : dq.Empty = true
          · simp only [hE, if_true, Except.ok.injEq, Prod.mk.injEq] at ht
            obtain ⟨rfl, rfl, rfl⟩ := ht
            have := he.mp hE
            exact ⟨i1, by omega, hrun⟩
          · simp only [hE, if_false, Bool.false_eq_true, Except.ok.injEq, Prod.mk.injEq] at ht
            obtain ⟨rfl, rfl, rfl⟩ := ht
            have : dq.live ≠ 0 := fun h0 => hE (he.mpr h0)
            exact ⟨i1, by omega, hrun⟩
        | empty =>
          simp only [Except.ok.injEq, Prod.mk.injEq] at ht
          obtain ⟨rfl, rfl, rfl⟩ := ht
          rw [call_empty] at h1
          simp only [Except.ok.injEq, Prod.mk.injEq] at h1
          obtain ⟨-, rfl⟩ := h1
          exact ⟨i1, i2, hrun⟩
    · push_neg at hop
      obtain ⟨v, rfl, hv⟩ := hop
      have htop : dq.live = 2 ^ 62 := by omega
      rw [tally_cons_fault_now (call_push_fault (h.push_full_fault htop v))] at ht
      cases ht

/-- C10: in every reachable state the live count write − read is at most the length
of the backing store and remainingCap() is not negative; and along every run from the
zero-value deque the live count equals the number of Push calls minus the number of
Shift/Pop calls made on a non-empty deque. -/
theorem occupancy [Inhabited T] :
    (∀ dq : Deque T, dq.Reachable → dq.live ≤ dq.elems.length ∧ 0 ≤ dq.remainingCap) ∧
    (∀ (ops : List (Op T)) (p r : Nat) (dq : Deque T),
      (fresh : Deque T).tally ops = .ok (p, r, dq) →
        dq.Reachable ∧ r ≤ p ∧ dq.live = p - r) := by
  constructor
  · intro dq hr
    have h := hr.wf
    have hle := h.live_le
    exact ⟨hle, by rw [h.remainingCap_eq]; omega⟩
  · intro ops p r dq ht
    obtain ⟨-, h2, tr, h3, h4⟩ := (fresh_wf (T := T)).tally_spec ops ht
    have h0 : (fresh : Deque T).live = 0 := fresh_live
    exact ⟨⟨ops, tr, h3, h4⟩, by omega, by omega⟩

/-- C10 on five pushes and four removals, one of them on the empty deque. -/
theorem occupancy_witness :
    (fresh : Deque Nat).tally [.push 1, .shift, .pop, .push 2, .push 3, .push 4, .pop,
        .push 5] = .ok (5, 2, ⟨[0, 2, 3, 5, 0, 0, 0, 0], 1, 4, 7⟩) ∧
    (⟨[0, 2, 3, 5, 0, 0, 0, 0], 1, 4, 7⟩ : Deque Nat).Reachable ∧
    (⟨[0, 2, 3, 5, 0, 0, 0, 0], 1, 4, 7⟩ : Deque Nat).live = 5 - 2 ∧
    (⟨[0, 2, 3, 5, 0, 0, 0, 0], 1, 4, 7⟩ : Deque Nat).live ≤ 8 ∧
    0 ≤ (⟨[0, 2, 3, 5, 0, 0, 0, 0], 1, 4, 7⟩ : Deque Nat).remainingCap := by
  have ht : (fresh : Deque Nat).tally [.push 1, .shift, .pop, .push 2, .push 3, .push 4, .pop,
      .push 5] = .ok (5, 2, ⟨[0, 2, 3, 5, 0, 0, 0, 0], 1, 4, 7⟩) := rfl
  obtain ⟨h1, -, h3⟩ := (occupancy (T := Nat)).2 _ _ _ _ ht
  obtain ⟨h4, h5⟩ := (occupancy (T := Nat)).1 _ h1
  exact ⟨ht, h1, h3, h4, h5⟩

end Deque

/-! ## One call, case by case -/

namespace Deque
variable {T : Type}

theorem shift_of_empty [Inhabited T] {dq : Deque T} (hE : dq.Empty = true) :
    dq.Shift = .ok (default, dq) := by
  simp only [Shift, hE, if_true]

theorem pop_of_empty [Inhabited T] {dq : Deque T} (hE : dq.Empty = true) :
    dq.Pop = .ok (default, dq) := by
  simp only [Pop, hE, if_true]

/-- The state a call that returned leaves, by cases on the call and on the
occupancy. -/
theorem WF.call_cases [Inhabited T] {dq dq' : Deque T} (h : dq.WF) {op : Op T} {r : Ret T}
    (hc : dq.call op = .ok (r, dq')) :
    (∃ v, op = .push v ∧ dq.live < dq.elems.length ∧ dq' = dq.pushedInPlace v) ∨
    (∃ v, op = .push v ∧ dq.live = dq.elems.length ∧ dq.live < 2 ^ 62 ∧ dq' = dq.grown v) ∨
    (op = .shift ∧ dq.live ≠ 0 ∧ dq' = dq.shifted) ∨
    (op = .pop ∧ dq.live ≠ 0 ∧ dq' = dq.popped) ∨
    ((op = .shift ∨ op = .pop) ∧ dq.live = 0 ∧ dq' = dq) ∨
    (op = .empty ∧ dq' = dq) := by
  have hle := h.live_le
  have hmax := h.live_le_max
  cases op with
  | push v =>
    rcases Nat.lt_or_ge dq.live dq.elems.length with hlt | hge
    · rw [call_push_ok (h.push_in_place hlt v)] at hc
      simp only [Except.ok.injEq, Prod.mk.injEq] at hc
      exact Or.inl ⟨v, rfl, hlt, hc.2.symm⟩
    · have hfull : dq.live = dq.elems.length := Nat.le_antisymm hle hge
      rcases Nat.lt_or_ge dq.live (2 ^ 62) with hlt | hge2
      · rw [call_push_ok (h.push_grow hfull hlt v)] at hc
        simp only [Except.ok.injEq, Prod.mk.injEq] at hc
        exact Or.inr (Or.inl ⟨v, rfl, hfull, hlt, hc.2.symm⟩)
      · have htop : dq.live = 2 ^ 62 := Nat.le_antisymm hmax hge2
        rw [call_push_fault (h.push_full_fault htop v)] at hc
        cases hc
  | shift =>
    rcases Nat.eq_zero_or_pos dq.live with h0 | hpos
    · rw [call_shift_ok (shift_of_empty (h.empty_iff.mpr h0))] at hc
      simp only [Except.ok.injEq, Prod.mk.injEq] at hc
      exact Or.inr (Or.inr (Or.inr (Or.inr (Or.inl ⟨Or.inl rfl, h0, hc.2.symm⟩))))
    · have hne : dq.live ≠ 0 := by omega
      rw [call_shift_ok (h.shift_nonempty hne)] at hc
      simp only [Except.ok.injEq, Prod.mk.injEq] at hc
      exact Or.inr (Or.inr (Or.inl ⟨rfl, hne, hc.2.symm⟩))
  | pop =>
    rcases Nat.eq_zero_or_pos dq.live with h0 | hpos
    · rw [call_pop_ok (pop_of_empty (h.empty_iff.mpr h0))] at hc
      simp only [Except.ok.injEq, Prod.mk.injEq] at hc
      exact Or.inr (Or.inr (Or.inr (Or.inr (Or.inl ⟨Or.inr rfl, h0, hc.2.symm⟩))))
    · have hne : dq.live ≠ 0 := by omega
      rw [call_pop_ok (h.pop_nonempty hne)] at hc
      simp only [Except.ok.injEq, Prod.mk.injEq] at hc
      exact Or.inr (Or.inr (Or.inr (Or.inl ⟨rfl, hne, hc.2.symm⟩)))
  | empty =>
    rw [call_empty] at hc
    simp only [Except.ok.injEq, Prod.mk.injEq] at hc
    exact Or.inr (Or.inr (Or.inr (Or.inr (Or.inr ⟨rfl, hc.2.symm⟩))))

/-- A call that returned keeps the representation invariant. -/
theorem WF.call_wf [Inhabited T] {dq dq' : Deque T} (h : dq.WF) {op : Op T} {r : Ret T}
    (hc : dq.call op = .ok (r, dq')) : dq'.WF := by
  rcases h.call_cases hc with ⟨v, -, hlt, rfl⟩ | ⟨v, -, hfull, hlt, rfl⟩ | ⟨-, hne, rfl⟩ |
    ⟨-, hne, rfl⟩ | ⟨-, -, rfl⟩ | ⟨-, rfl⟩
  · exact (h.pushedInPlace_wf hlt v).1
  · exact (h.grown_wf hfull hlt v).1
  · exact (h.shifted_wf hne).1
  · exact (h.popped_wf hne).1
  · exact h
  · exact h

/-- Induction along a run: a property of the start state that every returning call
preserves holds in the state the run ends in. -/
theorem WF.run_invariant [Inhabited T] (P : Deque T → Prop)
    (hstep : ∀ (dq dq' : Deque T) (op : Op T) (r : Ret T), dq.WF → P dq →
      dq.call op = .ok (r, dq') → P dq') (ops : List (Op T)) :
    ∀ {dq : Deque T} {tr : List (Ret T × Deque T)}, dq.WF → P dq → dq.run ops = .ok tr →
      P (dq.last tr) := by
  induction ops with
  | nil =>
    intro dq tr h hP hrun
    simp only [run, Except.ok.injEq] at hrun
    subst hrun
    exact hP
  | cons op ops ih =>
    intro dq tr h hP hrun
    cases hc : dq.call op with
    | error f => simp only [run, hc] at hrun; cases hrun
    | ok p =>
      obtain ⟨r, dq'⟩ := p
      cases hr : dq'.run ops with
      | error f => simp only [run, hc, hr] at hrun; cases hrun
      | ok tr' =>
        simp only [run, hc, hr, Except.ok.injEq] at hrun
        subst hrun
        rw [last_cons]
        exact ih (h.call_wf hc) (hstep dq dq' op r h hP hc) hr

/-- Induction over the reachable states. -/
theorem Reachable.induct [Inhabited T] (P : Deque T → Prop) (h0 : P fresh)
    (hstep : ∀ (dq dq' : Deque T) (op : Op T) (r : Ret T), dq.WF → P dq →
      dq.call op = .ok (r, dq') → P dq') {dq : Deque T} (hr : dq.Reachable) : P dq := by
  obtain ⟨ops, tr, h1, h2⟩ := hr
  rw [← h2]
  exact fresh_wf.run_invariant P hstep ops h0 h1

end Deque

/-! ## Capacity over time -/

namespace Deque
variable {T : Type}

theorem lenAfter_ok (dq dq' : Deque T) (r : Ret T) :
    dq.lenAfter (.ok (r, dq')) = dq'.elems.length := rfl

theorem lenAfter_error (dq : Deque T) (f : Fault) :
    dq.lenAfter (.error f) = dq.elems.length := rfl

/-- The store length after a call that returned: a `Push` on a full store leaves
twice the old length and at least 8, every other call leaves the length as it was. -/
theorem WF.call_length [Inhabited T] {dq dq' : Deque T} (h : dq.WF) {op : Op T} {r : Ret T}
    (hc : dq.call op = .ok (r, dq')) :
    (((∃ v, op = .push v) ∧ dq.live = dq.elems.length) ∧
      dq'.elems.length = max 8 (2 * dq.elems.length)) ∨
    (¬ ((∃ v, op = .push v) ∧ dq.live = dq.elems.length) ∧
      dq'.elems.length = dq.elems.length) := by
  have hle := h.live_le
  rcases h.call_cases hc with ⟨v, rfl, hlt, rfl⟩ | ⟨v, rfl, hfull, hlt, rfl⟩ | ⟨rfl, hne, rfl⟩ |
    ⟨rfl, hne, rfl⟩ | ⟨hop, -, rfl⟩ | ⟨rfl, rfl⟩
  · exact Or.inr ⟨fun hh => (by omega), List.length_set _ _ _⟩
  · exact Or.inl ⟨⟨⟨v, rfl⟩, hfull⟩, (h.grown_wf hfull hlt v).2.2⟩
  · exact Or.inr ⟨fun hh => (by obtain ⟨⟨v, hv⟩, -⟩ := hh; cases hv), List.length_set _ _ _⟩
  · exact Or.inr ⟨fun hh => (by obtain ⟨⟨v, hv⟩, -⟩ := hh; cases hv), List.length_set _ _ _⟩
  · refine Or.inr ⟨fun hh => ?_, rfl⟩
    obtain ⟨⟨v, hv⟩, -⟩ := hh
    rcases hop with rfl | rfl <;> cases hv
  · exact Or.inr ⟨fun hh => (by obtain ⟨⟨v, hv⟩, -⟩ := hh; cases hv), rfl⟩

/-- Calls other than `Push` return in every well-formed state. -/
theorem WF.call_returns [Inhabited T] {dq : Deque T} (h : dq.WF) (op : Op T)
    (hop : ∀ v, op = .push v → dq.live < 2 ^ 62) :
    ∃ r dq', dq.call op = .ok (r, dq') := by
  obtain ⟨dq', h1, -⟩ := h.call_spec op hop
  exact ⟨_, dq', h1⟩

/-- C11: in every reachable state and for each of Empty, Push, Shift, Pop, the
backing store is at least as long after the call as before (a call that panics leaves
the store as it was); Empty, Shift and Pop return and leave the length unchanged, and
so does Push whenever the live count is below the capacity. -/
theorem capacity_never_decreases [Inhabited T] (dq : Deque T) (hr : dq.Reachable)
    (op : Op T) :
    dq.elems.length ≤ dq.lenAfter (dq.call op) ∧
    ((∀ v, op = .push v → dq.live < dq.elems.length) →
      ∃ r dq', dq.call op = .ok (r, dq') ∧ dq'.elems.length = dq.elems.length) := by
  have h := hr.wf
  have hle := h.live_le
  have hlen := h.len_le
  constructor
  · cases hc : dq.call op with
    | error f => rw [lenAfter_error]
    | ok p =>
      obtain ⟨r, dq'⟩ := p
      rw [lenAfter_ok]
      rcases h.call_length hc with ⟨-, h1⟩ | ⟨-, h1⟩ <;> omega
  · intro hroom
    obtain ⟨r, dq', hc⟩ := h.call_returns op (fun v hv => by have := hroom v hv; omega)
    refine ⟨r, dq', hc, ?_⟩
    rcases h.call_length hc with ⟨⟨⟨v, hv⟩, hfull⟩, -⟩ | ⟨-, h1⟩
    · have := hroom v hv
      omega
    · exact h1

/-- C11 after Push 1, 2, 3: Shift and a further Push keep the store at length 8. -/
theorem capacity_never_decreases_witness :
    (⟨[1, 2, 3, 0, 0, 0, 0, 0], 0, 3, 7⟩ : Deque Nat).Reachable ∧
    (∃ r dq', (⟨[1, 2, 3, 0, 0, 0, 0, 0], 0, 3, 7⟩ : Deque Nat).call .shift = .ok (r, dq') ∧
      dq'.elems.length = 8) ∧
    (∃ r dq', (⟨[1, 2, 3, 0, 0, 0, 0, 0], 0, 3, 7⟩ : Deque Nat).call (.push 4) = .ok (r, dq') ∧
      dq'.elems.length = 8) := by
  have hr : (⟨[1, 2, 3, 0, 0, 0, 0, 0], 0, 3, 7⟩ : Deque Nat).Reachable :=
    ⟨[.push 1, .push 2, .push 3], _, rfl, rfl⟩
  exact ⟨hr, (capacity_never_decreases _ hr .shift).2 (by intro v hv; cases hv),
    (capacity_never_decreases _ hr (.push 4)).2 (by intro v _; decide)⟩

end Deque

namespace Deque
variable {T : Type}

/-- A reachable store is empty or has at least eight slots. -/
theorem Reachable.len_zero_or_ge [Inhabited T] {dq : Deque T} (hr : dq.Reachable) :
    dq.elems.length = 0 ∨ 8 ≤ dq.elems.length := by
  refine Reachable.induct (fun d : Deque T => d.elems.length = 0 ∨ 8 ≤ d.elems.length)
    (Or.inl rfl) ?_ hr
  intro dq dq' op r h hP hc
  rcases h.call_length hc with ⟨-, h1⟩ | ⟨-, h1⟩
  · right; omega
  · rw [h1]; exact hP

/-- The zero-size-element deque after `2 ^ 62` pushes: the run returns and ends in a
well-formed state with `2 ^ 62` live elements. -/
theorem reachable_top :
    ∃ tr, (fresh : Deque Unit).run (List.replicate (2 ^ 62) (Op.push ())) = .ok tr ∧
      ((fresh : Deque Unit).last tr).WF ∧ ((fresh : Deque Unit).last tr).live = 2 ^ 62 := by
  have hfit : ListModel.within maxLive (fresh : Deque Unit).toList
      ((List.replicate (2 ^ 62) ()).map Op.push) = true := by
    rw [fresh_toList, ListModel.within_pushes _ _ _ (Nat.zero_le _), List.length_replicate]
    decide
  obtain ⟨tr, h1, -, h3, h4⟩ := fresh_wf.run_spec _ hfit
  rw [List.map_replicate] at h1
  refine ⟨tr, h1, h3, ?_⟩
  rw [← toList_length, h4, fresh_toList, ListModel.final_pushes, List.nil_append,
    List.length_replicate]

/-- C12 (amended): in every reachable state whose store is full and shorter than
`2 ^ 62`, Push returns and leaves a store of length 8 if it was empty and of exactly
twice the old length otherwise; so the new length is at least double the old one and
at least 8. -/
theorem growth_doubles [Inhabited T] (dq : Deque T) (v : T) (hr : dq.Reachable)
    (hfull : dq.live = dq.elems.length) (hlt : dq.elems.length < 2 ^ 62) :
    ∃ dq', dq.Push v = .ok dq' ∧
      dq'.elems.length = (if dq.elems.length = 0 then 8 else 2 * dq.elems.length) ∧
      2 * dq.elems.length ≤ dq'.elems.length ∧ 8 ≤ dq'.elems.length := by
  have h := hr.wf
  have h8 := hr.len_zero_or_ge
  obtain ⟨-, -, hlen⟩ := h.grown_wf hfull (by omega) v
  refine ⟨dq.grown v, h.push_grow hfull (by omega) v, ?_, by omega, by omega⟩
  rw [hlen]
  split <;> omega

/-- C12 on the zero-value deque (0 to 8) and on a full store of eight (8 to 16). -/
theorem growth_doubles_witness :
    (∃ dq', (fresh : Deque Nat).Push 1 = .ok dq' ∧ dq'.elems.length = 8) ∧
    (⟨[1, 2, 3, 4, 5, 6, 7, 8], 0, 8, 7⟩ : Deque Nat).Reachable ∧
    (∃ dq', (⟨[1, 2, 3, 4, 5, 6, 7, 8], 0, 8, 7⟩ : Deque Nat).Push 9 = .ok dq' ∧
      dq'.elems.length = 16) := by
  have hr0 : (fresh : Deque Nat).Reachable := ⟨[], [], rfl, rfl⟩
  have hr : (⟨[1, 2, 3, 4, 5, 6, 7, 8], 0, 8, 7⟩ : Deque Nat).Reachable :=
    ⟨[.push 1, .push 2, .push 3, .push 4, .push 5, .push 6, .push 7, .push 8], _, rfl, rfl⟩
  obtain ⟨d0, a1, a2, -⟩ := growth_doubles (fresh : Deque Nat) 1 hr0 (by decide) (by decide)
  obtain ⟨d1, b1, b2, -⟩ := growth_doubles _ 9 hr (by decide) (by decide)
  exact ⟨⟨d0, a1, a2⟩, hr, ⟨d1, b1, b2⟩⟩

/-- C12 as stated fails in the reachable state with `2 ^ 62` live elements: the store
is full, Push takes the growth path and faults in `make`, no doubled store results. -/
theorem growth_doubles_fails_at_top :
    ∃ tr, (fresh : Deque Unit).run (List.replicate (2 ^ 62) (Op.push ())) = .ok tr ∧
      ((fresh : Deque Unit).last tr).live = ((fresh : Deque Unit).last tr).elems.length ∧
      ((fresh : Deque Unit).last tr).Push () = .error Fault.makeslice := by
  obtain ⟨tr, h1, h2, h3⟩ := reachable_top
  have h4 := h2.live_le
  have h5 := h2.len_le
  exact ⟨tr, h1, by omega, h2.push_full_fault h3 ()⟩

end Deque

/-! ## The capacity that `linearise` computes -/

namespace Deque
variable {T : Type}

theorem roundCapacity_zero : roundCapacity 0 = 8 := by decide

theorem shlOne_63 : shlOne 63 = -2 ^ 63 := by decide

theorem shlOne_64 : shlOne 64 = 0 := by decide

/-- Above `2 ^ 62` the shift `1 << 63` or `1 << 64` leaves the range of `int` and the
capacity falls back to 8. -/
theorem roundCapacity_big {need : Nat} (h1 : 2 ^ 62 < need) (h2 : need < 2 ^ 64) :
    roundCapacity need = 8 := by
  have hs : subU64 need 1 = need - 1 := by unfold subU64; omega
  unfold roundCapacity LeadingZeros64
  rw [hs]
  rcases Nat.lt_or_ge (need - 1) (2 ^ 63) with h3 | h3
  · have hl : Len64 (need - 1) = 63 := Len64_eq (j := 62) (by omega) (by omega) (by omega)
    rw [hl]
    have : 64 - (64 - 63) = 63 := by omega
    rw [this, shlOne_63]
    decide
  · have hl : Len64 (need - 1) = 64 := Len64_eq (j := 63) (by omega) (by omega) (by omega)
    rw [hl]
    have : 64 - (64 - 64) = 64 := by omega
    rw [this, shlOne_64]
    decide

/-- Up to `2 ^ 62` the capacity is the smallest power of two that is at least `need`
and at least 8. -/
theorem roundCapacity_small {need : Nat} (h : need ≤ 2 ^ 62) :
    ∃ j, roundCapacity need = ((2 ^ j : Nat) : Int) ∧ 3 ≤ j ∧ j ≤ 62 ∧ need ≤ 2 ^ j ∧
      (3 < j → 2 ^ (j - 1) < need) := by
  rcases Nat.lt_or_ge need 2 with hlt | hge
  · refine ⟨3, ?_, by omega, by omega, by omega, by omega⟩
    rcases Nat.lt_or_ge need 1 with h0 | h1
    · have : need = 0 := by omega
      rw [this]; exact roundCapacity_zero
    · have : need = 1 := by omega
      rw [this]; exact roundCapacity_one
  · have hne : need - 1 ≠ 0 := by omega
    have hlo := Nat.log2_self_le hne
    have hhi := Nat.lt_log2_self (n := need - 1)
    generalize (need - 1).log2 = j0 at hlo hhi
    have hj : j0 + 1 ≤ 62 := by
      rcases Nat.lt_or_ge j0 62 with h1 | h1
      · omega
      · have : 2 ^ 62 ≤ 2 ^ j0 := Nat.pow_le_pow_right (by decide) h1
        omega
    have hrc := roundCapacity_eq (j := j0) hj (show 2 ^ j0 < need by omega) (show need ≤ 2 ^ (j0 + 1) by omega)
    rcases Nat.lt_or_ge (j0 + 1) 3 with hsm | hbig
    · have h4 : 2 ^ (j0 + 1) ≤ 2 ^ 2 := Nat.pow_le_pow_right (by decide) (by omega)
      have e : max 8 (2 ^ (j0 + 1)) = 2 ^ 3 := by omega
      refine ⟨3, ?_, by omega, by omega, by omega, by omega⟩
      rw [hrc, e]
    · have h4 : 2 ^ 3 ≤ 2 ^ (j0 + 1) := Nat.pow_le_pow_right (by decide) hbig
      have e : max 8 (2 ^ (j0 + 1)) = 2 ^ (j0 + 1) := by omega
      refine ⟨j0 + 1, ?_, hbig, hj, by omega, fun _ => ?_⟩
      · rw [hrc, e]
      · rw [Nat.add_sub_cancel]; omega

theorem copyWindow_length (arr : List T) (off n : Nat) (src : List T)
    (h : off + min n src.length ≤ arr.length) :
    (copyWindow arr off n src).1.length = arr.length := by
  simp only [copyWindow, List.length_append, List.length_take, List.length_drop]
  omega

theorem copyWindow_count (arr : List T) (off n : Nat) (src : List T) :
    (copyWindow arr off n src).2 = min n src.length := rfl

/-- Length and capacity of the slice `linearise` returns, in any state in which its
checks pass. -/
theorem linearise_shape [Inhabited T] (dq : Deque T) (n : Int) {C : Nat}
    (hneed : ¬ addU64 dq.live (toUint64 n) < dq.live)
    (hcap : roundCapacity (addU64 dq.live (toUint64 n)) = (C : Int))
    (hC : dq.live ≤ C) (hp : dq.read &&& dq.mask ≤ dq.elems.length) :
    ∃ s, dq.linearise n = .ok s ∧ s.len = dq.live ∧ s.cap = C := by
  have hmk : ((dq.live : Nat) : Int) ≤ (C : Int) := by exact_mod_cast hC
  have hp' : ¬ dq.elems.length < dq.read &&& dq.mask := by omega
  unfold linearise
  simp only [live] at hneed hcap hmk hC ⊢
  simp only [hneed, hcap, hmk, hp', if_false, not_true_eq_false, Slice.make, Int.toNat_ofNat]
  refine ⟨_, rfl, rfl, ?_⟩
  simp only [Slice.cap]
  rw [copyWindow_length, copyWindow_length, List.length_replicate]
  · rw [List.length_replicate]; omega
  · rw [copyWindow_length, List.length_replicate, copyWindow_count]
    · omega
    · rw [List.length_replicate]; omega

end Deque

namespace Deque
variable {T : Type}

theorem toUint64_of_nonneg {n : Int} (hn : 0 ≤ n) (hlt : n.toNat < 2 ^ 64) :
    toUint64 n = n.toNat := by
  unfold toUint64
  omega

/-- With `2 ^ 62` live elements `linearise(1)` faults in `make`, whatever the store. -/
theorem linearise_one_top_fault [Inhabited T] (dq : Deque T) (htop : dq.live = 2 ^ 62) :
    dq.linearise 1 = .error .makeslice := by
  have hadd : addU64 dq.live (toUint64 1) = 2 ^ 62 + 1 := by
    rw [toUint64_one, htop]; decide
  have hneed : ¬ addU64 dq.live (toUint64 1) < dq.live := by rw [hadd, htop]; decide
  have hmk : ¬ ((dq.live : Int) ≤ roundCapacity (addU64 dq.live (toUint64 1))) := by
    rw [hadd, roundCapacity_top, htop]; decide
  unfold linearise
  simp only [live] at hneed hmk
  simp only [hneed, hmk, if_false, not_false_eq_true, if_true]

/-- What the clamp to 8 does when few elements are live and `n` is huge: on the
zero-value deque `linearise(2 ^ 62 + 1)` returns a slice of capacity 8, which has no
room for `n` more elements. -/
theorem linearise_huge_n_returns_eight :
    (fresh : Deque Unit).linearise (2 ^ 62 + 1) = .ok ⟨List.replicate 8 (), 0⟩ := by
  rfl

/-- An allocator asked for elements of size zero refuses nothing. -/
theorem allocRefused_zero (maxAlloc cap : Nat) : allocRefused 0 maxAlloc cap = false := by
  simp [allocRefused]

/-- Where the allocation is granted, `lineariseOn` returns the slice `linearise`
returns, and the deque as it was. -/
theorem lineariseOn_of_fits [Inhabited T] (elemSize maxAlloc : Nat) (dq : Deque T) (n : Int)
    {s : Slice T}
    (hfit : allocRefused elemSize maxAlloc
      (roundCapacity (addU64 dq.live (toUint64 n))).toNat = false)
    (h : dq.linearise n = .ok s) : dq.lineariseOn elemSize maxAlloc n = .ok (s, dq) := by
  unfold linearise at h
  unfold lineariseOn
  simp only [live] at hfit
  by_cases c1 : addU64 (subU64 dq.write dq.read) (toUint64 n) < subU64 dq.write dq.read
  · simp only [c1, if_true] at h
    cases h
  · by_cases c2 : ((subU64 dq.write dq.read : Nat) : Int)
        ≤ roundCapacity (addU64 (subU64 dq.write dq.read) (toUint64 n))
    · by_cases c3 : dq.elems.length < dq.read &&& dq.mask
      · simp only [c1, c2, c3, if_false, if_true, not_true_eq_false] at h
        cases h
      · simp only [c1, c2, c3, if_false, not_true_eq_false, Except.ok.injEq] at h
        subst h
        simp only [c1, c2, c3, hfit, if_false, not_true_eq_false, Bool.false_eq_true,
          or_self]
    · simp only [c1, c2, if_false, if_true, not_false_eq_true] at h
      cases h

/-- Where the allocation is refused, `lineariseOn` panics in `make`. -/
theorem lineariseOn_refused [Inhabited T] (elemSize maxAlloc : Nat) (dq : Deque T) (n : Int)
    (hneed : ¬ addU64 dq.live (toUint64 n) < dq.live)
    (href : allocRefused elemSize maxAlloc
      (roundCapacity (addU64 dq.live (toUint64 n))).toNat = true) :
    dq.lineariseOn elemSize maxAlloc n = .error .makeslice := by
  unfold lineariseOn
  simp only [live] at hneed href
  simp only [hneed, href, if_false, true_or, if_true]

/-- With `2 ^ 62` live elements `linearise(1)` faults in `make`, whatever the store and
whatever the allocator grants. -/
theorem lineariseOn_one_top_fault [Inhabited T] (elemSize maxAlloc : Nat) (dq : Deque T)
    (htop : dq.live = 2 ^ 62) : dq.lineariseOn elemSize maxAlloc 1 = .error .makeslice := by
  have hadd : addU64 dq.live (toUint64 1) = 2 ^ 62 + 1 := by
    rw [toUint64_one, htop]; decide
  have hneed : ¬ addU64 dq.live (toUint64 1) < dq.live := by rw [hadd, htop]; decide
  have hmk : ¬ ((dq.live : Int) ≤ roundCapacity (addU64 dq.live (toUint64 1))) := by
    rw [hadd, roundCapacity_top, htop]; decide
  unfold lineariseOn
  simp only [live] at hneed hmk
  simp only [hneed, hmk, if_false, not_false_eq_true, or_true, if_true]

/-- The function `linearise` that `Push` calls is `lineariseOn` for an allocator that
refuses nothing, with the receiver dropped from the result. -/
theorem linearise_eq_lineariseOn [Inhabited T] (maxAlloc : Nat) (dq : Deque T) (n : Int) :
    dq.linearise n = (dq.lineariseOn 0 maxAlloc n).map Prod.fst := by
  unfold linearise lineariseOn
  simp only [allocRefused_zero, Bool.false_eq_true, false_or]
  by_cases c1 : addU64 (subU64 dq.write dq.read) (toUint64 n) < subU64 dq.write dq.read
  · simp only [c1, if_true]; rfl
  · by_cases c2 : ((subU64 dq.write dq.read : Nat) : Int)
        ≤ roundCapacity (addU64 (subU64 dq.write dq.read) (toUint64 n))
    · by_cases c3 : dq.elems.length < dq.read &&& dq.mask
      · simp only [c1, c2, c3, if_false, if_true, not_true_eq_false]; rfl
      · simp only [c1, c2, c3, if_false, not_true_eq_false]; rfl
    · simp only [c1, c2, if_false, if_true, not_false_eq_true]; rfl

/-- C13 (amended): in every state whose pivot read & mask lies within the store, for
every non-negative n with need = (write − read) + n at most `2 ^ 62`, and for every
element size and allocation limit under which `make` grants the capacity computed
from need, linearise(n) returns a slice of length write − read whose capacity is the
smallest power of two that is at least need, raised to 8 when that is smaller; so the
capacity is a power of two with room for at least n more elements. -/
theorem linearise_capacity [Inhabited T] (elemSize maxAlloc : Nat) (dq : Deque T) (n : Int)
    (hn : 0 ≤ n) (hp : dq.read &&& dq.mask ≤ dq.elems.length)
    (hneed : dq.live + n.toNat ≤ 2 ^ 62)
    (hmem : allocRefused elemSize maxAlloc (roundCapacity (dq.live + n.toNat)).toNat = false) :
    ∃ s j, dq.lineariseOn elemSize maxAlloc n = .ok (s, dq) ∧ s.len = dq.live ∧
      s.cap = 2 ^ j ∧ 3 ≤ j ∧ s.len + n.toNat ≤ s.cap ∧
      (3 < j → 2 ^ (j - 1) < dq.live + n.toNat) := by
  have hu : toUint64 n = n.toNat := toUint64_of_nonneg hn (by omega)
  have hadd : addU64 dq.live (toUint64 n) = dq.live + n.toNat := by
    rw [hu]; unfold addU64; omega
  obtain ⟨j, hj1, hj2, hj3, hj4, hj5⟩ := roundCapacity_small hneed
  obtain ⟨s, h1, h2, h3⟩ := linearise_shape dq n (C := 2 ^ j)
    (by rw [hadd]; omega) (by rw [hadd]; exact hj1) (by omega) hp
  exact ⟨s, j, lineariseOn_of_fits elemSize maxAlloc dq n (by rw [hadd]; exact hmem) h1,
    h2, h3, hj2, by omega, hj5⟩

/-- C13 with three live elements of eight bytes, an allocation limit of `2 ^ 48` bytes
and n = 6: need = 9, capacity 16. -/
theorem linearise_capacity_witness :
    (0 : Int) ≤ 6 ∧
    (⟨[1, 2, 3, 0, 0, 0, 0, 0], 0, 3, 7⟩ : Deque Nat).live + (6 : Int).toNat ≤ 2 ^ 62 ∧
    allocRefused 8 (2 ^ 48) (roundCapacity
      ((⟨[1, 2, 3, 0, 0, 0, 0, 0], 0, 3, 7⟩ : Deque Nat).live + (6 : Int).toNat)).toNat = false ∧
    ∃ s j, (⟨[1, 2, 3, 0, 0, 0, 0, 0], 0, 3, 7⟩ : Deque Nat).lineariseOn 8 (2 ^ 48) 6
        = .ok (s, ⟨[1, 2, 3, 0, 0, 0, 0, 0], 0, 3, 7⟩) ∧
      s.len = (⟨[1, 2, 3, 0, 0, 0, 0, 0], 0, 3, 7⟩ : Deque Nat).live ∧ s.cap = 2 ^ j ∧ 3 ≤ j ∧
      s.len + (6 : Int).toNat ≤ s.cap ∧
      (3 < j → 2 ^ (j - 1)
        < (⟨[1, 2, 3, 0, 0, 0, 0, 0], 0, 3, 7⟩ : Deque Nat).live + (6 : Int).toNat) :=
  ⟨by decide, by decide, by decide,
    linearise_capacity 8 (2 ^ 48) _ 6 (by decide) (by decide) (by decide) (by decide)⟩

/-- C13 as stated fails in three ways. With `2 ^ 62` live elements of size zero and
n = 1 the sum does not overflow, yet linearise faults in `make` instead of returning
capacity `2 ^ 63`. In a state whose pivot lies beyond the store the slice expression
faults. On the zero-value deque of eight-byte elements with n = `2 ^ 50` the capacity
`2 ^ 50` is computed and `make` refuses the `2 ^ 53` bytes, the limit being
`2 ^ 48`. -/
theorem linearise_capacity_fails :
    (⟨List.replicate (2 ^ 62) (), 0, 2 ^ 62, 2 ^ 62 - 1⟩ : Deque Unit).lineariseOn 0 (2 ^ 48) 1
      = .error Fault.makeslice ∧
    (⟨[], 5, 5, 7⟩ : Deque Unit).lineariseOn 0 (2 ^ 48) 0 = .error Fault.sliceBounds ∧
    roundCapacity (2 ^ 50) = 2 ^ 50 ∧
    (fresh : Deque Int).lineariseOn 8 (2 ^ 48) (2 ^ 50) = .error Fault.makeslice :=
  ⟨lineariseOn_one_top_fault 0 (2 ^ 48) _ (by decide), rfl, by decide,
    lineariseOn_refused 8 (2 ^ 48) _ (2 ^ 50) (by decide) (by decide)⟩

/-- C14: in every state and for every n, when the `uint64` sum
need = (write − read) + n wraps around, so that need < write − read, linearise(n)
panics with "overflow" and returns no slice. -/
theorem overflow_is_fatal [Inhabited T] (dq : Deque T) (n : Int)
    (h : addU64 (subU64 dq.write dq.read) (toUint64 n) < subU64 dq.write dq.read) :
    dq.linearise n = .error .overflow := by
  unfold linearise
  simp only [h, if_true]

/-- C14 with three live elements and n = −1: `uint64(n)` is `2 ^ 64 − 1`, the sum
wraps to 2. -/
theorem overflow_is_fatal_witness :
    addU64 (subU64 3 0) (toUint64 (-1)) < subU64 3 0 ∧
    (⟨[1, 2, 3, 0, 0, 0, 0, 0], 0, 3, 7⟩ : Deque Nat).linearise (-1) = .error .overflow :=
  ⟨by decide, overflow_is_fatal _ (-1) (by decide)⟩

end Deque

namespace Deque
variable {T : Type}

/-- C15 (amended): in every state with power-of-two capacity, mask = capacity − 1 and
live count write − read at most the capacity, for every non-negative n whose sum
with the live count does not overflow and either is at most `2 ^ 62` or comes with at
most 8 live elements, and for every element size and allocation limit under which
`make` grants the capacity computed from that sum, linearise(n) returns a slice of
length write − read whose element at index i is the store element at physical slot
(read + i) & mask: first the segment from read & mask to the physical end, then the
wrapped prefix; and the deque after the call is the deque before it. -/
theorem linearise_unwraps [Inhabited T] (elemSize maxAlloc : Nat) (dq : Deque T) (n : Int)
    (hr : dq.read < 2 ^ 64) (hw : dq.write < 2 ^ 64)
    (hshape : ∃ k, k ≤ 62 ∧ dq.elems.length = 2 ^ k ∧ dq.mask = 2 ^ k - 1)
    (hlive : dq.live ≤ dq.elems.length) (hn : 0 ≤ n)
    (hnover : dq.live + n.toNat < 2 ^ 64)
    (hneed : dq.live + n.toNat ≤ 2 ^ 62 ∨ dq.live ≤ 8)
    (hmem : allocRefused elemSize maxAlloc (roundCapacity (dq.live + n.toNat)).toNat = false) :
    ∃ s dq', dq.lineariseOn elemSize maxAlloc n = .ok (s, dq') ∧ dq' = dq ∧
      s.len = dq.live ∧
      (∀ i, i < dq.live → s.arr[i]? = dq.elems[dq.slot i]?) ∧
      s.arr.take dq.live = (dq.elems.drop (dq.read &&& dq.mask) ++
        dq.elems.take (dq.read &&& dq.mask)).take dq.live := by
  have h : dq.WF := ⟨hr, hw, Or.inr hshape, hlive⟩
  have hu : toUint64 n = n.toNat := toUint64_of_nonneg hn (by omega)
  have hadd : addU64 dq.live (toUint64 n) = dq.live + n.toNat := by
    rw [hu]; unfold addU64; omega
  have htl := toList_length dq
  obtain ⟨C, hC1, hC2⟩ : ∃ C : Nat, roundCapacity (addU64 dq.live (toUint64 n)) = (C : Int) ∧
      dq.live ≤ C := by
    rw [hadd]
    rcases Nat.lt_or_ge (2 ^ 62) (dq.live + n.toNat) with hbig | hsmall
    · refine ⟨8, roundCapacity_big hbig hnover, ?_⟩
      rcases hneed with h1 | h1 <;> omega
    · obtain ⟨j, hj1, -, -, hj4, -⟩ := roundCapacity_small hsmall
      exact ⟨2 ^ j, hj1, by omega⟩
  have hlin := linearise_eq dq n (by rw [hadd]; omega) hC1 hC2 h.pivot_le hlive
  refine ⟨_, dq, lineariseOn_of_fits elemSize maxAlloc dq n (by rw [hadd]; exact hmem) hlin,
    rfl, rfl, ?_, ?_⟩
  · intro i hi
    show ((dq.elems.rotate (dq.read &&& dq.mask)).take dq.live ++
      List.replicate (C - dq.live) default)[i]? = _
    rw [h.linearise_rotate_eq, List.getElem?_append_left (by omega), h.toList_getElem? hi]
  · show ((dq.elems.rotate (dq.read &&& dq.mask)).take dq.live ++
      List.replicate (C - dq.live) default).take dq.live = _
    rw [List.rotate_eq_drop_append_take h.pivot_le]
    apply List.take_left'
    rw [← List.rotate_eq_drop_append_take h.pivot_le, h.linearise_rotate_eq, htl]

/-- C15 on a store of eight with five live elements of eight bytes that wrap:
read = 6, write = 11, allocation limit `2 ^ 48` bytes. -/
theorem linearise_unwraps_witness :
    (6 < 2 ^ 64 ∧ 11 < 2 ^ 64) ∧
    (⟨[12, 13, 14, 0, 0, 0, 10, 11], 6, 11, 7⟩ : Deque Nat).live ≤ 8 ∧
    allocRefused 8 (2 ^ 48) (roundCapacity
      ((⟨[12, 13, 14, 0, 0, 0, 10, 11], 6, 11, 7⟩ : Deque Nat).live + (1 : Int).toNat)).toNat
      = false ∧
    ∃ s dq', (⟨[12, 13, 14, 0, 0, 0, 10, 11], 6, 11, 7⟩ : Deque Nat).lineariseOn 8 (2 ^ 48) 1
        = .ok (s, dq') ∧
      dq' = ⟨[12, 13, 14, 0, 0, 0, 10, 11], 6, 11, 7⟩ ∧
      s.len = 5 ∧ s.arr.take 5 = [10, 11, 12, 13, 14] := by
  refine ⟨by decide, by decide, by decide, ?_⟩
  obtain ⟨s, dq', h1, h2, h3, -, h5⟩ :=
    linearise_unwraps 8 (2 ^ 48) (⟨[12, 13, 14, 0, 0, 0, 10, 11], 6, 11, 7⟩ : Deque Nat) 1
      (by decide) (by decide) ⟨3, by decide, by decide, by decide⟩ (by decide) (by decide)
      (by decide) (Or.inl (by decide)) (by decide)
  exact ⟨s, dq', h1, h2, h3, h5⟩

/-- C15 as stated fails in two ways. A store of sixteen with nine live elements and
n = `2 ^ 62` meets every condition of the claim (the sum does not overflow), and
linearise faults in `make` because the capacity computed from `1 << 63` falls back
to 8. A store of eight with three live elements of eight bytes and n = `2 ^ 50` meets
them too, and `make` refuses the `2 ^ 53` bytes of the capacity `2 ^ 50`, the limit
being `2 ^ 48`. -/
theorem linearise_unwraps_fails :
    (⟨List.range 16, 0, 9, 15⟩ : Deque Nat).live = 9 ∧
    (⟨List.range 16, 0, 9, 15⟩ : Deque Nat).lineariseOn 8 (2 ^ 48) (2 ^ 62)
      = .error Fault.makeslice ∧
    (⟨[1, 2, 3, 0, 0, 0, 0, 0], 0, 3, 7⟩ : Deque Nat).live = 3 ∧
    (⟨[1, 2, 3, 0, 0, 0, 0, 0], 0, 3, 7⟩ : Deque Nat).lineariseOn 8 (2 ^ 48) (2 ^ 50)
      = .error Fault.makeslice :=
  ⟨by decide, rfl, by decide,
    lineariseOn_refused 8 (2 ^ 48) _ (2 ^ 50) (by decide) (by decide)⟩

end Deque

/-! ## The cursors as numbers -/

namespace Deque
variable {T : Type}

/-- While the pushes of a run fit below `2 ^ 64`, the write cursor stays at or above
the read cursor: it never exceeds the number of pushes made. -/
theorem WF.run_cursor_order [Inhabited T] (ops : List (Op T)) :
    ∀ {dq : Deque T} {tr : List (Ret T × Deque T)} (B : Nat), dq.WF → dq.read ≤ dq.write →
      dq.write ≤ B → B + pushCount ops < 2 ^ 64 → dq.run ops = .ok tr →
      (dq.last tr).read ≤ (dq.last tr).write := by
  induction ops with
  | nil =>
    intro dq tr B h h1 h2 h3 hrun
    simp only [run, Except.ok.injEq] at hrun
    subst hrun
    exact h1
  | cons op ops ih =>
    intro dq tr B h h1 h2 h3 hrun
    cases hc : dq.call op with
    | error f => simp only [run, hc] at hrun; cases hrun
    | ok p =>
      obtain ⟨r, dq'⟩ := p
      cases hr : dq'.run ops with
      | error f => simp only [run, hc, hr] at hrun; cases hrun
      | ok tr' =>
        simp only [run, hc, hr, Except.ok.injEq] at hrun
        subst hrun
        rw [last_cons]
        have hwf' := h.call_wf hc
        have hr0 := h.read_lt
        have hw0 := h.write_lt
        rcases h.call_cases hc with ⟨v, rfl, hlt, rfl⟩ | ⟨v, rfl, hfull, hlt, rfl⟩ |
          ⟨rfl, hne, rfl⟩ | ⟨rfl, hne, rfl⟩ | ⟨hop, -, rfl⟩ | ⟨rfl, rfl⟩
        · simp only [pushCount] at h3
          refine ih (B + 1) hwf' ?_ ?_ (by omega) hr
          · simp only [pushedInPlace, addU64]; omega
          · simp only [pushedInPlace, addU64]; omega
        · simp only [pushCount] at h3
          refine ih (B + 1) hwf' ?_ ?_ (by omega) hr
          · simp only [grown]; omega
          · simp only [grown, live, subU64]; omega
        · simp only [pushCount] at h3
          refine ih B hwf' ?_ ?_ h3 hr
          · simp only [shifted, addU64, live, subU64] at hne ⊢; omega
          · exact h2
        · simp only [pushCount] at h3
          refine ih B hwf' ?_ ?_ h3 hr
          · simp only [popped, live, subU64] at hne ⊢; omega
          · simp only [popped, live, subU64] at hne ⊢; omega
        · have h3' : B + pushCount ops < 2 ^ 64 := by
            rcases hop with rfl | rfl <;> simpa only [pushCount] using h3
          exact ih B hwf' h1 h2 h3' hr
        · simp only [pushCount] at h3
          exact ih B hwf' h1 h2 h3 hr

/-- C16 (amended): in every state reached from the zero-value deque by a sequence of
calls that holds fewer than `2 ^ 64` Push calls, write ≥ read as unsigned 64-bit
values. -/
theorem cursor_order [Inhabited T] (ops : List (Op T)) (tr : List (Ret T × Deque T))
    (hrun : (fresh : Deque T).run ops = .ok tr) (hfew : pushCount ops < 2 ^ 64) :
    ((fresh : Deque T).last tr).read ≤ ((fresh : Deque T).last tr).write :=
  fresh_wf.run_cursor_order ops 0 (Nat.le_refl _) (Nat.le_refl _) (by omega) hrun

/-- C16 after three pushes and two removals: read = 1, write = 2. -/
theorem cursor_order_witness :
    pushCount ([.push 1, .push 2, .push 3, .shift, .pop] : List (Op Nat)) < 2 ^ 64 ∧
    ∃ tr, (fresh : Deque Nat).run [.push 1, .push 2, .push 3, .shift, .pop] = .ok tr ∧
      ((fresh : Deque Nat).last tr).read = 1 ∧ ((fresh : Deque Nat).last tr).write = 2 ∧
      ((fresh : Deque Nat).last tr).read ≤ ((fresh : Deque Nat).last tr).write := by
  have hrun : (fresh : Deque Nat).run [.push 1, .push 2, .push 3, .shift, .pop]
      = .ok [(.unit, ⟨[1, 0, 0, 0, 0, 0, 0, 0], 0, 1, 7⟩),
        (.unit, ⟨[1, 2, 0, 0, 0, 0, 0, 0], 0, 2, 7⟩),
        (.unit, ⟨[1, 2, 3, 0, 0, 0, 0, 0], 0, 3, 7⟩),
        (.val 1, ⟨[0, 2, 3, 0, 0, 0, 0, 0], 1, 3, 7⟩),
        (.val 3, ⟨[0, 2, 0, 0, 0, 0, 0, 0], 1, 2, 7⟩)] := rfl
  exact ⟨by decide, _, hrun, rfl, rfl, cursor_order _ _ hrun (by decide)⟩

end Deque

namespace Deque
variable {T : Type}

/-- One element live in a store of eight: every Push, Shift pair moves both cursors up
by one, modulo `2 ^ 64`. -/
theorem WF.run_pushShift_cursors [Inhabited T] (xs : List T) :
    ∀ {dq : Deque T}, dq.WF → dq.elems.length = 8 → dq.live = 1 →
      ∃ tr, dq.run (pushShift xs) = .ok tr ∧
        (dq.last tr).read = (dq.read + xs.length) % 2 ^ 64 ∧
        (dq.last tr).write = (dq.write + xs.length) % 2 ^ 64 := by
  induction xs with
  | nil =>
    intro dq h _ _
    have h1 := h.read_lt
    have h2 := h.write_lt
    exact ⟨[], rfl, by rw [last_nil, List.length_nil]; omega,
      by rw [last_nil, List.length_nil]; omega⟩
  | cons x xs ih =>
    intro dq h h8 hl
    have hroom : dq.live < dq.elems.length := by omega
    obtain ⟨hwf1, hl1⟩ := h.pushedInPlace_wf hroom x
    have hne1 : (dq.pushedInPlace x).live ≠ 0 := by omega
    obtain ⟨hwf2, hl2⟩ := hwf1.shifted_wf hne1
    have h82 : (dq.pushedInPlace x).shifted.elems.length = 8 := by
      simp only [shifted, pushedInPlace, List.length_set]
      exact h8
    obtain ⟨tr, t1, t2, t3⟩ := ih hwf2 h82 (by omega)
    have hcall1 := call_push_ok (h.push_in_place hroom x)
    have hcall2 := call_shift_ok (hwf1.shift_nonempty hne1)
    refine ⟨_, run_cons_ok hcall1 (run_cons_ok hcall2 t1), ?_, ?_⟩
    · rw [last_cons, last_cons, t2]
      simp only [shifted, pushedInPlace, addU64, List.length_cons]
      omega
    · rw [last_cons, last_cons, t3]
      simp only [shifted, pushedInPlace, addU64, List.length_cons]
      omega

/-- C16 as stated fails: one Push followed by `2 ^ 64 − 1` Push, Shift pairs on a
deque of zero-size elements carries the write cursor past `2 ^ 64`; the state reached
has write = 0 and read = `2 ^ 64 − 1`. -/
theorem cursor_order_fails_after_wrap :
    ∃ tr, (fresh : Deque Unit).run
        (Op.push () :: pushShift (List.replicate (2 ^ 64 - 1) ())) = .ok tr ∧
      ((fresh : Deque Unit).last tr).write = 0 ∧
      ((fresh : Deque Unit).last tr).read = 2 ^ 64 - 1 ∧
      ((fresh : Deque Unit).last tr).write < ((fresh : Deque Unit).last tr).read := by
  have hfl : (fresh : Deque Unit).live = 0 := fresh_live
  have hfull : (fresh : Deque Unit).live = (fresh : Deque Unit).elems.length := hfl
  have hlt : (fresh : Deque Unit).live < 2 ^ 62 := by rw [hfl]; decide
  obtain ⟨hwf, hlive, hlen⟩ := fresh_wf.grown_wf hfull hlt ()
  have h8 : ((fresh : Deque Unit).grown ()).elems.length = 8 := hlen
  have hl1 : ((fresh : Deque Unit).grown ()).live = 1 := by rw [hlive, hfl]
  obtain ⟨tr, t1, t2, t3⟩ := hwf.run_pushShift_cursors (List.replicate (2 ^ 64 - 1) ()) h8 hl1
  have hcall := call_push_ok (fresh_wf.push_grow hfull hlt ())
  have hr0 : ((fresh : Deque Unit).grown ()).read = 0 := rfl
  have hw1 : ((fresh : Deque Unit).grown ()).write = 1 := by
    show (fresh : Deque Unit).live + 1 = 1
    rw [hfl]
  rw [List.length_replicate, hr0] at t2
  rw [List.length_replicate, hw1] at t3
  have e2 : (0 + (2 ^ 64 - 1)) % 2 ^ 64 = 2 ^ 64 - 1 := by decide
  have e3 : (1 + (2 ^ 64 - 1)) % 2 ^ 64 = 0 := by decide
  rw [e2] at t2
  rw [e3] at t3
  refine ⟨_, run_cons_ok hcall t1, ?_, ?_, ?_⟩
  · rw [last_cons]; exact t3
  · rw [last_cons]; exact t2
  · rw [last_cons, t2, t3]; decide

end Deque

namespace Deque
variable {T : Type}

/-- C17 (amended): in every state with power-of-two capacity, mask = capacity − 1 and
(write − read) mod `2 ^ 64` at most the capacity, states with write < read included,
(write − read) mod `2 ^ 64` is the number of live elements, Empty() is true exactly
when it is 0, the logical content is made of the elements at slots (read + i) & mask
with read + i taken mod `2 ^ 64`, Shift and Pop act on it as remove-first and
remove-last, and Push acts on it as append whenever fewer than `2 ^ 62` elements are
live. -/
theorem wraparound_tolerated [Inhabited T] (dq : Deque T) (v : T)
    (hr : dq.read < 2 ^ 64) (hw : dq.write < 2 ^ 64)
    (hshape : ∃ k, k ≤ 62 ∧ dq.elems.length = 2 ^ k ∧ dq.mask = 2 ^ k - 1)
    (hlive : subU64 dq.write dq.read ≤ dq.elems.length) :
    dq.toList.length = subU64 dq.write dq.read ∧
    (dq.Empty = true ↔ subU64 dq.write dq.read = 0) ∧
    (∀ i, i < subU64 dq.write dq.read →
      dq.toList[i]? = dq.elems[addU64 dq.read i &&& dq.mask]?) ∧
    (subU64 dq.write dq.read < 2 ^ 62 →
      ∃ dq', dq.Push v = .ok dq' ∧ dq'.toList = dq.toList ++ [v]) ∧
    (∃ dq', dq.Shift = .ok (dq.toList.headD default, dq') ∧ dq'.toList = dq.toList.tail) ∧
    (∃ dq', dq.Pop = .ok (dq.toList.getLastD default, dq') ∧
      dq'.toList = dq.toList.dropLast) := by
  have h : dq.WF := ⟨hr, hw, Or.inr hshape, hlive⟩
  refine ⟨toList_length dq, h.empty_iff, fun i hi => h.toList_getElem? hi, fun hlt => ?_, ?_, ?_⟩
  · obtain ⟨dq', h1, -, h3, -⟩ := h.push_spec hlt v
    exact ⟨dq', h1, h3⟩
  · obtain ⟨dq', h1, -, h3, -⟩ := h.shift_spec
    exact ⟨dq', h1, h3⟩
  · obtain ⟨dq', h1, -, h3, -⟩ := h.pop_spec
    exact ⟨dq', h1, h3⟩

/-- C17 on the state of the claim: capacity 8, read = `2 ^ 64 − 1`, write = 1, two live
elements at slots 7 and 0. -/
theorem wraparound_tolerated_witness :
    (2 ^ 64 - 1 < 2 ^ 64 ∧ 1 < 2 ^ 64) ∧
    subU64 1 (2 ^ 64 - 1) = 2 ∧
    (⟨[20, 0, 0, 0, 0, 0, 0, 10], 2 ^ 64 - 1, 1, 7⟩ : Deque Nat).toList = [10, 20] ∧
    (∃ dq', (⟨[20, 0, 0, 0, 0, 0, 0, 10], 2 ^ 64 - 1, 1, 7⟩ : Deque Nat).Push 30 = .ok dq' ∧
      dq'.toList = [10, 20, 30]) ∧
    (∃ dq', (⟨[20, 0, 0, 0, 0, 0, 0, 10], 2 ^ 64 - 1, 1, 7⟩ : Deque Nat).Shift
      = .ok (10, dq') ∧ dq'.toList = [20]) ∧
    (∃ dq', (⟨[20, 0, 0, 0, 0, 0, 0, 10], 2 ^ 64 - 1, 1, 7⟩ : Deque Nat).Pop
      = .ok (20, dq') ∧ dq'.toList = [10]) := by
  obtain ⟨-, -, -, h4, h5, h6⟩ :=
    wraparound_tolerated (⟨[20, 0, 0, 0, 0, 0, 0, 10], 2 ^ 64 - 1, 1, 7⟩ : Deque Nat) 30
      (by decide) (by decide) ⟨3, by decide, by decide, by decide⟩ (by decide)
  exact ⟨by decide, by decide, by decide, h4 (by decide), h5, h6⟩

/-- C17 as stated fails: a full store of capacity `2 ^ 62` with wrapped cursors meets
every condition of the claim, and Push faults in `make` instead of appending. -/
theorem wraparound_push_fails_at_top :
    (⟨List.replicate (2 ^ 62) (), 2 ^ 64 - 1, 2 ^ 62 - 1, 2 ^ 62 - 1⟩ : Deque Unit).elems.length
      = 2 ^ 62 ∧
    subU64 (2 ^ 62 - 1) (2 ^ 64 - 1) = 2 ^ 62 ∧
    (⟨List.replicate (2 ^ 62) (), 2 ^ 64 - 1, 2 ^ 62 - 1, 2 ^ 62 - 1⟩ : Deque Unit).Push ()
      = .error Fault.makeslice := by
  have hlen : (⟨List.replicate (2 ^ 62) (), 2 ^ 64 - 1, 2 ^ 62 - 1, 2 ^ 62 - 1⟩ :
      Deque Unit).elems.length = 2 ^ 62 := List.length_replicate _ _
  have hlive : (⟨List.replicate (2 ^ 62) (), 2 ^ 64 - 1, 2 ^ 62 - 1, 2 ^ 62 - 1⟩ :
      Deque Unit).live = 2 ^ 62 := by decide
  have h : (⟨List.replicate (2 ^ 62) (), 2 ^ 64 - 1, 2 ^ 62 - 1, 2 ^ 62 - 1⟩ :
      Deque Unit).WF :=
    ⟨by decide, by decide, Or.inr ⟨62, Nat.le_refl _, hlen, rfl⟩, by rw [hlive, hlen]⟩
  exact ⟨hlen, by decide, h.push_full_fault hlive ()⟩

end Deque

/-! ## No stale values -/

namespace Deque
variable {T : Type}

theorem WF.slot_zero {dq : Deque T} (h : dq.WF) : dq.slot 0 = dq.read &&& dq.mask := by
  have h1 := h.read_lt
  have e : addU64 dq.read 0 = dq.read := by unfold addU64; omega
  simp only [slot, e]

theorem WF.shifted_slot [Inhabited T] {dq : Deque T} (h : dq.WF) (i : Nat) :
    dq.shifted.slot i = dq.slot (i + 1) := by
  have h1 := h.read_lt
  have e : addU64 (addU64 dq.read 1) i = addU64 dq.read (i + 1) := by
    unfold addU64; omega
  simp only [slot, shifted, e]

theorem WF.slot_last {dq : Deque T} (h : dq.WF) (hne : dq.live ≠ 0) :
    dq.slot (dq.live - 1) = subU64 dq.write 1 &&& dq.mask := by
  have h1 := h.read_lt
  have h2 := h.write_lt
  have e : addU64 dq.read (dq.live - 1) = subU64 dq.write 1 := by
    simp only [live, addU64, subU64] at hne ⊢
    omega
  simp only [slot, e]

theorem WF.slot_live {dq : Deque T} (h : dq.WF) :
    dq.slot dq.live = dq.write &&& dq.mask := by
  simp only [slot, ← h.write_eq]

theorem WF.grown_slot [Inhabited T] {dq : Deque T} (h : dq.WF)
    (hfull : dq.live = dq.elems.length) (hlt : dq.live < 2 ^ 62) (e : T) {i : Nat}
    (hi : i ≤ dq.live) : (dq.grown e).slot i = i := by
  obtain ⟨hwf, -, hl⟩ := h.grown_wf hfull hlt e
  rw [hwf.slot_eq (by omega)]
  have : (dq.grown e).read = 0 := rfl
  rw [this, Nat.zero_add]
  exact Nat.mod_eq_of_lt (by omega)

theorem fresh_clean [Inhabited T] : (fresh : Deque T).Clean := by
  intro p hp
  exact absurd hp (Nat.not_lt_zero p)

theorem WF.pushedInPlace_clean [Inhabited T] {dq : Deque T} (h : dq.WF)
    (hlt : dq.live < dq.elems.length) (e : T) (hc : dq.Clean) :
    (dq.pushedInPlace e).Clean := by
  obtain ⟨-, hlive⟩ := h.pushedInPlace_wf hlt e
  intro p hp hout
  have hp' : p < dq.elems.length := by
    simpa only [pushedInPlace, List.length_set] using hp
  have hsl : ∀ i, (dq.pushedInPlace e).slot i = dq.slot i := fun _ => rfl
  have hne : dq.write &&& dq.mask ≠ p := by
    rw [← h.slot_live, ← hsl]
    exact hout _ (by omega)
  show (dq.elems.set (dq.write &&& dq.mask) e)[p]? = some default
  rw [List.getElem?_set_ne hne]
  exact hc p hp' (fun i hi => by rw [← hsl]; exact hout i (by omega))

theorem WF.shifted_clean [Inhabited T] {dq : Deque T} (h : dq.WF) (hne : dq.live ≠ 0)
    (hc : dq.Clean) : dq.shifted.Clean := by
  obtain ⟨-, hlive⟩ := h.shifted_wf hne
  intro p hp hout
  have hp' : p < dq.elems.length := by
    simpa only [shifted, List.length_set] using hp
  show (dq.elems.set (dq.read &&& dq.mask) default)[p]? = some default
  by_cases hz : dq.read &&& dq.mask = p
  · rw [hz, List.getElem?_set_self hp']
  · rw [List.getElem?_set_ne hz]
    apply hc p hp'
    intro i hi
    cases i with
    | zero => rw [h.slot_zero]; exact hz
    | succ j => rw [← h.shifted_slot]; exact hout j (by omega)

theorem WF.popped_clean [Inhabited T] {dq : Deque T} (h : dq.WF) (hne : dq.live ≠ 0)
    (hc : dq.Clean) : dq.popped.Clean := by
  obtain ⟨-, hlive⟩ := h.popped_wf hne
  intro p hp hout
  have hp' : p < dq.elems.length := by
    simpa only [popped, List.length_set] using hp
  have hsl : ∀ i, dq.popped.slot i = dq.slot i := fun _ => rfl
  show (dq.elems.set (subU64 dq.write 1 &&& dq.mask) default)[p]? = some default
  by_cases hz : subU64 dq.write 1 &&& dq.mask = p
  · rw [hz, List.getElem?_set_self hp']
  · rw [List.getElem?_set_ne hz]
    apply hc p hp'
    intro i hi
    rcases Nat.lt_or_ge i (dq.live - 1) with hlt | hge
    · rw [← hsl]; exact hout i (by omega)
    · have : i = dq.live - 1 := by omega
      rw [this, h.slot_last hne]; exact hz

/-- After a growing `Push` every slot past the pushed element holds the zero value. -/
theorem WF.grown_tail_zero [Inhabited T] {dq : Deque T} (h : dq.WF)
    (hfull : dq.live = dq.elems.length) (hlt : dq.live < 2 ^ 62) (e : T) {p : Nat}
    (hp1 : dq.live < p) (hp2 : p < (dq.grown e).elems.length) :
    (dq.grown e).elems[p]? = some default := by
  obtain ⟨-, -, hl⟩ := h.grown_wf hfull hlt e
  have htl := toList_length dq
  rw [hl] at hp2
  show (dq.toList ++ e :: List.replicate
    (max 8 (2 * dq.elems.length) - dq.live - 1) default)[p]? = some default
  rw [List.getElem?_append_right (by omega), htl]
  obtain ⟨q, hq⟩ : ∃ q, p - dq.live = q + 1 := ⟨p - dq.live - 1, by omega⟩
  rw [hq, List.getElem?_cons_succ, List.getElem?_replicate]
  rw [if_pos (by omega)]

theorem WF.grown_clean [Inhabited T] {dq : Deque T} (h : dq.WF)
    (hfull : dq.live = dq.elems.length) (hlt : dq.live < 2 ^ 62) (e : T) :
    (dq.grown e).Clean := by
  obtain ⟨-, hlive, -⟩ := h.grown_wf hfull hlt e
  intro p hp hout
  have hgt : dq.live < p := by
    rcases Nat.lt_or_ge dq.live p with h1 | h1
    · exact h1
    · exact absurd (h.grown_slot hfull hlt e h1) (hout p (by omega))
  exact h.grown_tail_zero hfull hlt e hgt hp

/-- Every reachable state is free of stale values. -/
theorem Reachable.clean [Inhabited T] {dq : Deque T} (hr : dq.Reachable) : dq.Clean := by
  refine Reachable.induct (fun d : Deque T => d.Clean) fresh_clean ?_ hr
  intro dq dq' op r h hP hc
  rcases h.call_cases hc with ⟨v, -, hlt, rfl⟩ | ⟨v, -, hfull, hlt, rfl⟩ | ⟨-, hne, rfl⟩ |
    ⟨-, hne, rfl⟩ | ⟨-, -, rfl⟩ | ⟨-, rfl⟩
  · exact h.pushedInPlace_clean hlt v hP
  · exact h.grown_clean hfull hlt v
  · exact h.shifted_clean hne hP
  · exact h.popped_clean hne hP
  · exact hP
  · exact hP

/-- C18: in every reachable state every physical slot that is not (read + i) & mask
for some i below the live count holds the zero value; and a Push that grows the store
leaves the zero value in every slot past the pushed element. -/
theorem no_stale_values [Inhabited T] (dq : Deque T) (hr : dq.Reachable) :
    (∀ p, p < dq.elems.length → (∀ i, i < dq.live → dq.slot i ≠ p) →
      dq.elems[p]? = some default) ∧
    (∀ v, dq.live = dq.elems.length → dq.elems.length < 2 ^ 62 →
      ∃ dq', dq.Push v = .ok dq' ∧
        ∀ p, dq.live < p → p < dq'.elems.length → dq'.elems[p]? = some default) := by
  have h := hr.wf
  refine ⟨hr.clean, fun v hfull hlt => ?_⟩
  exact ⟨dq.grown v, h.push_grow hfull (by omega) v,
    fun p hp1 hp2 => h.grown_tail_zero hfull (by omega) v hp1 hp2⟩

/-- C18 after Push 1, 2, 3, Shift, Pop: only slot 1 is live, slots 0 and 2 were
cleared. -/
theorem no_stale_values_witness :
    (⟨[0, 2, 0, 0, 0, 0, 0, 0], 1, 2, 7⟩ : Deque Nat).Reachable ∧
    (⟨[0, 2, 0, 0, 0, 0, 0, 0], 1, 2, 7⟩ : Deque Nat).elems[0]? = some 0 ∧
    (⟨[0, 2, 0, 0, 0, 0, 0, 0], 1, 2, 7⟩ : Deque Nat).elems[2]? = some 0 := by
  have hr : (⟨[0, 2, 0, 0, 0, 0, 0, 0], 1, 2, 7⟩ : Deque Nat).Reachable :=
    ⟨[.push 1, .push 2, .push 3, .shift, .pop], _, rfl, rfl⟩
  have hc := (no_stale_values _ hr).1
  exact ⟨hr, hc 0 (by decide) (by decide), hc 2 (by decide) (by decide)⟩

end Deque

/-! ## Safety below the top capacity, and the Push, Pop round trip -/

namespace Deque
variable {T : Type}

theorem set_of_getElem? (l : List T) (i : Nat) (a : T) (h : l[i]? = some a) :
    l.set i a = l := by
  apply List.ext_getElem?
  intro j
  by_cases hij : i = j
  · subst hij
    rw [h]
    have hlt : i < l.length := by
      obtain ⟨hlt, -⟩ := List.getElem?_eq_some_iff.mp h
      exact hlt
    exact List.getElem?_set_self hlt
  · exact List.getElem?_set_ne hij

/-- C19: in every reachable state whose capacity is below `2 ^ 62`, Push, Shift and
Pop all return: the index of an in-place Push, of a Shift and of a Pop on a non-empty
deque is below the length of the store, the pivot of linearise is within the store,
the length passed to make does not exceed the capacity, the overflow panic is not
reached, and linearise(1) returns. -/
theorem no_fault_below_top [Inhabited T] (dq : Deque T) (v : T) (hr : dq.Reachable)
    (hcap : dq.elems.length < 2 ^ 62) :
    (∃ dq', dq.Push v = .ok dq') ∧ (∃ t dq', dq.Shift = .ok (t, dq')) ∧
    (∃ t dq', dq.Pop = .ok (t, dq')) ∧
    (dq.remainingCap ≥ 1 → dq.write &&& dq.mask < dq.elems.length) ∧
    (dq.Empty = false → dq.read &&& dq.mask < dq.elems.length ∧
      subU64 dq.write 1 &&& dq.mask < dq.elems.length) ∧
    dq.read &&& dq.mask ≤ dq.elems.length ∧
    (dq.live : Int) ≤ roundCapacity (addU64 dq.live (toUint64 1)) ∧
    ¬ addU64 dq.live (toUint64 1) < dq.live ∧
    (∃ s, dq.linearise 1 = .ok s) := by
  have h := hr.wf
  have hle := h.live_le
  have hadd : addU64 dq.live (toUint64 1) = dq.live + 1 := by
    rw [toUint64_one]; unfold addU64; omega
  obtain ⟨j, hj1, -, -, hj4, -⟩ :=
    roundCapacity_small (show dq.live + 1 ≤ 2 ^ 62 by omega)
  have hmk : (dq.live : Int) ≤ roundCapacity (addU64 dq.live (toUint64 1)) := by
    rw [hadd, hj1]
    exact_mod_cast (by omega : dq.live ≤ 2 ^ j)
  have hno : ¬ addU64 dq.live (toUint64 1) < dq.live := by rw [hadd]; omega
  obtain ⟨d1, p1, -⟩ := h.push_spec (by omega) v
  obtain ⟨d2, s1, -⟩ := h.shift_spec
  obtain ⟨d3, q1, -⟩ := h.pop_spec
  obtain ⟨s, l1, -⟩ := linearise_shape dq 1 (C := 2 ^ j) hno (by rw [hadd]; exact hj1)
    (by omega) h.pivot_le
  refine ⟨⟨d1, p1⟩, ⟨_, d2, s1⟩, ⟨_, d3, q1⟩, ?_, ?_, h.pivot_le, hmk, hno, ⟨s, l1⟩⟩
  · intro hrc
    rw [h.remainingCap_eq] at hrc
    have hpos : 0 < dq.elems.length := by omega
    rw [(h.ring hpos).2]
    exact Nat.mod_lt _ hpos
  · intro hE
    have hne : dq.live ≠ 0 := by
      intro h0
      rw [h.empty_iff.mpr h0] at hE
      cases hE
    have hpos : 0 < dq.elems.length := by omega
    rw [(h.ring hpos).2, (h.ring hpos).2]
    exact ⟨Nat.mod_lt _ hpos, Nat.mod_lt _ hpos⟩

/-- C19 after Push 1, 2, 3. -/
theorem no_fault_below_top_witness :
    (⟨[1, 2, 3, 0, 0, 0, 0, 0], 0, 3, 7⟩ : Deque Nat).Reachable ∧
    (⟨[1, 2, 3, 0, 0, 0, 0, 0], 0, 3, 7⟩ : Deque Nat).elems.length < 2 ^ 62 ∧
    (∃ dq', (⟨[1, 2, 3, 0, 0, 0, 0, 0], 0, 3, 7⟩ : Deque Nat).Push 4 = .ok dq') ∧
    (∃ t dq', (⟨[1, 2, 3, 0, 0, 0, 0, 0], 0, 3, 7⟩ : Deque Nat).Shift = .ok (t, dq')) ∧
    (∃ t dq', (⟨[1, 2, 3, 0, 0, 0, 0, 0], 0, 3, 7⟩ : Deque Nat).Pop = .ok (t, dq')) := by
  have hr : (⟨[1, 2, 3, 0, 0, 0, 0, 0], 0, 3, 7⟩ : Deque Nat).Reachable :=
    ⟨[.push 1, .push 2, .push 3], _, rfl, rfl⟩
  obtain ⟨h1, h2, h3, -⟩ := no_fault_below_top _ 4 hr (by decide)
  exact ⟨hr, by decide, h1, h2, h3⟩

/-- A Push in place followed by a Pop gives back the state it started from, when the
slot that took the element held the zero value before. -/
theorem WF.pushedInPlace_popped [Inhabited T] {dq : Deque T} (h : dq.WF)
    (hlt : dq.live < dq.elems.length) (hc : dq.Clean) (e : T) :
    (dq.pushedInPlace e).popped = dq := by
  have h1 := h.write_lt
  have hw : subU64 (addU64 dq.write 1) 1 = dq.write := by
    unfold subU64 addU64; omega
  have hidx : dq.write &&& dq.mask < dq.elems.length := by
    rw [← h.slot_live]; exact h.slot_lt (by omega) _
  have hzero : dq.elems[dq.write &&& dq.mask]? = some default := by
    apply hc _ hidx
    intro i hi
    rw [← h.slot_live]
    exact h.slot_ne (by omega) hlt (by omega)
  have key : (dq.pushedInPlace e).popped =
      ⟨(dq.elems.set (dq.write &&& dq.mask) e).set
          (subU64 (addU64 dq.write 1) 1 &&& dq.mask) default,
        dq.read, subU64 (addU64 dq.write 1) 1, dq.mask⟩ := rfl
  rw [key, hw, List.set_set, set_of_getElem? _ _ _ hzero]

/-- C20 (amended): in every reachable state with fewer than `2 ^ 62` live elements,
Push(v) followed immediately by Pop() returns v and leaves the logical content as it
was; and when the Push did not grow the store, the state after the Pop is the state
before the Push, field for field. -/
theorem push_pop_round_trip [Inhabited T] (dq : Deque T) (v : T) (hr : dq.Reachable)
    (hlt : dq.live < 2 ^ 62) :
    ∃ dq1 dq2, dq.Push v = .ok dq1 ∧ dq1.Pop = .ok (v, dq2) ∧ dq2.toList = dq.toList ∧
      (dq.live < dq.elems.length → dq2 = dq) := by
  have h := hr.wf
  have hle := h.live_le
  obtain ⟨dq1, p1, p2, p3, p4, -⟩ := h.push_spec hlt v
  obtain ⟨dq2, q1, -, q3, -⟩ := p2.pop_spec
  rw [p3, List.getLastD_concat] at q1
  rw [p3, List.dropLast_concat] at q3
  refine ⟨dq1, dq2, p1, q1, q3, fun hroom => ?_⟩
  have e1 : dq1 = dq.pushedInPlace v := by
    have := h.push_in_place hroom v
    rw [p1] at this
    exact Except.ok.inj this
  have hne : dq1.live ≠ 0 := by omega
  have e2 := p2.pop_nonempty hne
  rw [q1] at e2
  have e3 : dq2 = dq1.popped := (Prod.mk.inj (Except.ok.inj e2)).2
  rw [e3, e1]
  exact h.pushedInPlace_popped hroom hr.clean v

/-- C20 after Push 1, 2, 3: Push 9, Pop returns 9 and restores the state. -/
theorem push_pop_round_trip_witness :
    (⟨[1, 2, 3, 0, 0, 0, 0, 0], 0, 3, 7⟩ : Deque Nat).Reachable ∧
    (⟨[1, 2, 3, 0, 0, 0, 0, 0], 0, 3, 7⟩ : Deque Nat).live < 2 ^ 62 ∧
    ∃ dq1, (⟨[1, 2, 3, 0, 0, 0, 0, 0], 0, 3, 7⟩ : Deque Nat).Push 9 = .ok dq1 ∧
      dq1.Pop = .ok (9, ⟨[1, 2, 3, 0, 0, 0, 0, 0], 0, 3, 7⟩) := by
  have hr : (⟨[1, 2, 3, 0, 0, 0, 0, 0], 0, 3, 7⟩ : Deque Nat).Reachable :=
    ⟨[.push 1, .push 2, .push 3], _, rfl, rfl⟩
  obtain ⟨dq1, dq2, h1, h2, -, h4⟩ := push_pop_round_trip _ 9 hr (by decide)
  rw [h4 (by decide)] at h2
  exact ⟨hr, by decide, dq1, h1, h2⟩

/-- C20 as stated fails in the reachable state with `2 ^ 62` live elements: Push does
not return, so no Pop follows it. -/
theorem push_pop_round_trip_fails_at_top :
    ∃ tr, (fresh : Deque Unit).run (List.replicate (2 ^ 62) (Op.push ())) = .ok tr ∧
      ((fresh : Deque Unit).last tr).Push () = .error Fault.makeslice := by
  obtain ⟨tr, h1, h2, h3⟩ := reachable_top
  exact ⟨tr, h1, h2.push_full_fault h3 ()⟩

end Deque
